import Mathlib

/-!
Verification of the TPCreator subsystem (`mqe/tpcreator.py`): tag-matching
specifications, derived-tile option computation, master replacement and the
layout mods that create derived tiles and synchronize their sizes.

Strings are modelled by Lean `String` (a sequence of unicode code points,
matching Python `str` semantics for the operations used here).  Python's
string comparison (lexicographic by code point) is modelled by the
structurally recursive `charListLe`/`strle` below, and Python's
`str.startswith` by `str_starts_with`.
-/

/-- Lexicographic comparison of char lists by code point; models Python's
string `<=` restricted to the underlying code-point sequences. -/
def charListLe : List Char → List Char → Bool
  | [], _ => true
  | _ :: _, [] => false
  | a :: as, b :: bs =>
    if a < b then true
    else if b < a then false
    else charListLe as bs

/-- Python string `<=` on the code-point sequences of the two strings. -/
def strle (s t : String) : Prop := charListLe s.data t.data = true

instance : DecidableRel strle := fun s t =>
  inferInstanceAs (Decidable (charListLe s.data t.data = true))

theorem charListLe_cons_lt {a b : Char} (h : a < b) (as bs : List Char) :
    charListLe (a :: as) (b :: bs) = true := by
  simp [charListLe, h]

theorem charListLe_cons_gt {a b : Char} (h : b < a) (as bs : List Char) :
    charListLe (a :: as) (b :: bs) = false := by
  simp [charListLe, asymm h, h]

theorem charListLe_cons_same (a : Char) (as bs : List Char) :
    charListLe (a :: as) (a :: bs) = charListLe as bs := by
  simp [charListLe, lt_irrefl]

theorem charListLe_refl : ∀ as, charListLe as as = true
  | [] => rfl
  | a :: as => by rw [charListLe_cons_same]; exact charListLe_refl as

theorem charListLe_total : ∀ as bs, charListLe as bs = true ∨ charListLe bs as = true := by
  intro as
  induction as with
  | nil => intro bs; left; rfl
  | cons a as ih =>
    intro bs
    cases bs with
    | nil => right; rfl
    | cons b bs =>
      rcases lt_trichotomy a b with h | h | h
      · left; exact charListLe_cons_lt h as bs
      · subst h
        rcases ih bs with h2 | h2
        · left; rw [charListLe_cons_same]; exact h2
        · right; rw [charListLe_cons_same]; exact h2
      · right; exact charListLe_cons_lt h bs as

theorem charListLe_trans : ∀ as bs cs, charListLe as bs = true → charListLe bs cs = true →
    charListLe as cs = true := by
  intro as
  induction as with
  | nil => intro bs cs _ _; rfl
  | cons a as ih =>
    intro bs cs h1 h2
    cases bs with
    | nil => simp [charListLe] at h1
    | cons b bs =>
      cases cs with
      | nil => simp [charListLe] at h2
      | cons c cs =>
        rcases lt_trichotomy a b with hab | hab | hab
        · rcases lt_trichotomy b c with hbc | hbc | hbc
          · exact charListLe_cons_lt (lt_trans hab hbc) as cs
          · subst hbc; exact charListLe_cons_lt hab as cs
          · rw [charListLe_cons_gt hbc] at h2; exact absurd h2 (by simp)
        · subst hab
          rw [charListLe_cons_same] at h1
          rcases lt_trichotomy a c with hac | hac | hac
          · exact charListLe_cons_lt hac as cs
          · subst hac
            rw [charListLe_cons_same] at h2 ⊢
            exact ih bs cs h1 h2
          · rw [charListLe_cons_gt hac] at h2; exact absurd h2 (by simp)
        · rw [charListLe_cons_gt hab] at h1; exact absurd h1 (by simp)

theorem charListLe_antisymm : ∀ as bs, charListLe as bs = true → charListLe bs as = true →
    as = bs := by
  intro as
  induction as with
  | nil => intro bs h1 h2; cases bs with
    | nil => rfl
    | cons b bs => simp [charListLe] at h2
  | cons a as ih =>
    intro bs h1 h2
    cases bs with
    | nil => simp [charListLe] at h1
    | cons b bs =>
      rcases lt_trichotomy a b with hab | hab | hab
      · rw [charListLe_cons_gt hab] at h2; exact absurd h2 (by simp)
      · subst hab
        rw [charListLe_cons_same] at h1 h2
        rw [ih bs h1 h2]
      · rw [charListLe_cons_gt hab] at h1; exact absurd h1 (by simp)

instance : IsTotal String strle := ⟨fun s t => charListLe_total s.data t.data⟩

instance : IsTrans String strle := ⟨fun s t u => charListLe_trans s.data t.data u.data⟩

theorem string_data_inj {s t : String} (h : s.data = t.data) : s = t := by
  cases s
  cases t
  exact congrArg String.mk h

instance : IsAntisymm String strle :=
  ⟨fun s t h1 h2 => string_data_inj (charListLe_antisymm s.data t.data h1 h2)⟩

instance : IsRefl String strle := ⟨fun s => charListLe_refl s.data⟩

/-- Structural prefix test on lists (models Python `startswith` on the
underlying code-point lists). -/
def listIsPref [DecidableEq α] : List α → List α → Bool
  | [], _ => true
  | _ :: _, [] => false
  | a :: as, b :: bs => if a = b then listIsPref as bs else false

/-- Python `t.startswith(p)` on code points. -/
def str_starts_with (t p : String) : Bool := listIsPref p.data t.data

/-- `uniq_go key seen l` keeps the elements of `l` whose key was not seen
before (scanning left to right); the worker for `uniq_sameorder_key`. -/
def uniq_go [DecidableEq β] (key : α → β) (seen : List β) : List α → List α
  | [] => []
  | x :: xs =>
    if key x ∈ seen then uniq_go key seen xs
    else x :: uniq_go key (key x :: seen) xs

/-- `util.uniq_sameorder` with a key function: removes duplicates (by key),
keeping the first occurrence, preserving order. -/
def uniq_sameorder_key [DecidableEq β] (key : α → β) (l : List α) : List α :=
  uniq_go key [] l

/-- `util.uniq_sameorder` without a key: removes duplicate elements keeping
the first occurrence. -/
def uniq_sameorder [DecidableEq α] (l : List α) : List α :=
  uniq_sameorder_key id l

theorem uniq_go_sublist [DecidableEq β] (key : α → β) :
    ∀ (l : List α) (seen : List β), (uniq_go key seen l).Sublist l := by
  intro l
  induction l with
  | nil => intro seen; simp [uniq_go]
  | cons x xs ih =>
    intro seen
    by_cases h : key x ∈ seen
    · simp only [uniq_go, if_pos h]
      exact (ih seen).cons x
    · simp only [uniq_go, if_neg h]
      exact (ih (key x :: seen)).cons₂ x

theorem uniq_go_mem [DecidableEq β] (key : α → β) {l : List α} {seen : List β} {x : α}
    (h : x ∈ uniq_go key seen l) : x ∈ l :=
  (uniq_go_sublist key l seen).mem h

theorem uniq_go_key_not_seen [DecidableEq β] (key : α → β) :
    ∀ (l : List α) (seen : List β) (x : α), x ∈ uniq_go key seen l → key x ∉ seen := by
  intro l
  induction l with
  | nil => intro seen x h; simp [uniq_go] at h
  | cons y ys ih =>
    intro seen x h
    by_cases hy : key y ∈ seen
    · simp only [uniq_go, if_pos hy] at h
      exact ih seen x h
    · simp only [uniq_go, if_neg hy, List.mem_cons] at h
      rcases h with h | h
      · subst h; exact hy
      · intro hx
        exact ih (key y :: seen) x h (List.mem_cons_of_mem _ hx)

theorem uniq_go_keys_nodup [DecidableEq β] (key : α → β) :
    ∀ (l : List α) (seen : List β), ((uniq_go key seen l).map key).Nodup := by
  intro l
  induction l with
  | nil => intro seen; simp [uniq_go]
  | cons x xs ih =>
    intro seen
    by_cases h : key x ∈ seen
    · simp only [uniq_go, if_pos h]
      exact ih seen
    · simp only [uniq_go, if_neg h, List.map_cons, List.nodup_cons]
      refine ⟨?_, ih (key x :: seen)⟩
      intro hmem
      rcases List.mem_map.mp hmem with ⟨z, hz, hkz⟩
      exact uniq_go_key_not_seen key xs (key x :: seen) z hz (by simp [hkz])

theorem uniq_go_covers [DecidableEq β] (key : α → β) :
    ∀ (l : List α) (seen : List β) (s : α), s ∈ l →
      key s ∈ seen ∨ key s ∈ (uniq_go key seen l).map key := by
  intro l
  induction l with
  | nil => intro seen s h; simp at h
  | cons x xs ih =>
    intro seen s h
    rcases List.mem_cons.mp h with h | h
    · subst h
      by_cases hx : key s ∈ seen
      · exact Or.inl hx
      · right
        simp [uniq_go, if_neg hx]
    · by_cases hx : key x ∈ seen
      · simpa only [uniq_go, if_pos hx] using ih seen s h
      · rcases ih (key x :: seen) s h with hin | hin
        · rcases List.mem_cons.mp hin with hin | hin
          · right; simp [uniq_go, if_neg hx, hin]
          · exact Or.inl hin
        · right
          simp only [uniq_go, if_neg hx, List.map_cons, List.mem_cons]
          exact Or.inr hin

theorem uniq_go_find [DecidableEq β] (key : α → β) :
    ∀ (l : List α) (seen : List β) (x : α), x ∈ uniq_go key seen l →
      l.find? (fun y => decide (key y = key x)) = some x := by
  intro l
  induction l with
  | nil => intro seen x h; simp [uniq_go] at h
  | cons y ys ih =>
    intro seen x h
    by_cases hy : key y ∈ seen
    · simp only [uniq_go, if_pos hy] at h
      have hne : key y ≠ key x := by
        intro he
        exact uniq_go_key_not_seen key ys seen x h (he ▸ hy)
      rw [List.find?_cons]
      simp only [hne, decide_eq_true_eq, if_neg, decide_False]
      exact ih seen x h
    · simp only [uniq_go, if_neg hy, List.mem_cons] at h
      rcases h with h | h
      · subst h
        rw [List.find?_cons]
        simp
      · have hne : key y ≠ key x := by
          intro he
          exact uniq_go_key_not_seen key ys (key y :: seen) x h (by simp [he])
        rw [List.find?_cons]
        simp only [hne, decide_eq_true_eq, if_neg, decide_False]
        exact ih (key y :: seen) x h

theorem uniq_sameorder_key_sublist [DecidableEq β] (key : α → β) (l : List α) :
    (uniq_sameorder_key key l).Sublist l :=
  uniq_go_sublist key l []

theorem uniq_sameorder_key_keys_nodup [DecidableEq β] (key : α → β) (l : List α) :
    ((uniq_sameorder_key key l).map key).Nodup :=
  uniq_go_keys_nodup key l []

theorem uniq_sameorder_key_covers [DecidableEq β] (key : α → β) {l : List α} {s : α}
    (h : s ∈ l) : key s ∈ (uniq_sameorder_key key l).map key := by
  rcases uniq_go_covers key l [] s h with h' | h'
  · simp at h'
  · exact h'

theorem uniq_sameorder_key_find [DecidableEq β] (key : α → β) {l : List α} {x : α}
    (h : x ∈ uniq_sameorder_key key l) :
    l.find? (fun y => decide (key y = key x)) = some x :=
  uniq_go_find key l [] x h

theorem uniq_sameorder_nodup [DecidableEq α] (l : List α) : (uniq_sameorder l).Nodup := by
  have h := uniq_sameorder_key_keys_nodup (id : α → α) l
  simpa using h

theorem uniq_sameorder_mem_iff [DecidableEq α] (l : List α) (x : α) :
    x ∈ uniq_sameorder l ↔ x ∈ l := by
  constructor
  · intro h
    exact uniq_go_mem id h
  · intro h
    have := uniq_sameorder_key_covers (id : α → α) h
    simpa using this

/-! ### TagSpec Engine (`mqe/tpcreator.py` lines 18-108) -/

/-- `TPCREATOR_SEPARATOR = ':'` (a one-character string in the source;
modelled as the character). -/
def TPCREATOR_SEPARATOR : Char := ':'

/-- One entry of a `tpcreator_uispec`: the dict `{'tag': ..., 'prefix': ...}`.
The field `pfx` models the entry's `'prefix'` key. -/
structure UEntry where
  tag : String
  pfx : String
deriving Repr, DecidableEq

/-- `_tpcreator_prefix(tag)`: `tag.split(TPCREATOR_SEPARATOR, 1)[0] +
TPCREATOR_SEPARATOR`, i.e. the part of the tag up to and including the first
separator. -/
def tpcreator_prefix_of (tag : String) : String :=
  String.mk (tag.data.takeWhile (fun c => c ≠ TPCREATOR_SEPARATOR)) ++
    String.mk [TPCREATOR_SEPARATOR]

/-- The entry `suggested_tpcreator_uispec` builds for one tag: `{'tag': tag,
'prefix': _tpcreator_prefix(tag)}` when the tag contains the separator, else
`{'tag': tag, 'prefix': tag}`. -/
def suggested_entry (tag : String) : UEntry :=
  if TPCREATOR_SEPARATOR ∈ tag.data then
    { tag := tag, pfx := tpcreator_prefix_of tag }
  else
    { tag := tag, pfx := tag }

/-- `suggested_tpcreator_uispec(tags)`: one suggested entry per tag. -/
def suggested_tpcreator_uispec (tags : List String) : List UEntry :=
  tags.map suggested_entry

/-- `suggested_tpcreator_prefixes(tag)`: the empty string, the part until the
separator (when present) and the full tag. -/
def suggested_tpcreator_prefixes (tag : String) : List String :=
  [""] ++
    (if TPCREATOR_SEPARATOR ∈ tag.data then [tpcreator_prefix_of tag] else []) ++
    [tag]

/-- The compiled `tpcreator_spec` dict: `{'full_tags': ..., 'prefixes': ...}`.
A Python value that is falsy at the `if not tpcreator_spec` check (an empty
dict or `None`) is modelled as `none` at the use sites, so this structure
models only truthy (non-empty) spec dicts. -/
structure TpcreatorSpec where
  full_tags : List String
  prefixes : List String
deriving Repr, DecidableEq

/-- `tpcreator_spec_from_tpcreator_uispec`: `full_tags` are the tags of the
entries with `tag == prefix` (in order); `prefixes` are the prefixes of the
remaining entries, deduplicated keeping first occurrences, then stably sorted
by increasing length. -/
def tpcreator_spec_from_tpcreator_uispec (tpcreator_uispec : List UEntry) : TpcreatorSpec :=
  { full_tags := (tpcreator_uispec.filter (fun d => d.tag = d.pfx)).map (fun d => d.tag),
    prefixes :=
      List.insertionSort (fun a b : String => a.length ≤ b.length)
        (uniq_sameorder
          ((tpcreator_uispec.filter (fun d => ¬ d.tag = d.pfx)).map (fun d => d.pfx))) }

/-- The `full_tags` loop of `tags_matching_tpcreator_spec`: appends each
member of `full_tags`, failing (`None`) when one is absent from `tags`. -/
def matchFullTags : List String → List String → Option (List String)
  | [], _ => some []
  | ft :: rest, tags =>
    if ft ∈ tags then (matchFullTags rest tags).map (fun r => ft :: r)
    else none

/-- The `prefixes` loop of `tags_matching_tpcreator_spec`: for each prefix,
appends every tag starting with it, failing (`None`) when a prefix matches no
tag. -/
def matchPrefixes : List String → List String → Option (List String)
  | [], _ => some []
  | p :: rest, tags =>
    let matched := tags.filter (fun t => str_starts_with t p)
    if matched = [] then none
    else (matchPrefixes rest tags).map (fun r => matched ++ r)

/-- `tags_matching_tpcreator_spec(tpcreator_spec, tags)` (lines 58-82).  The
first argument is `none` when the Python value is falsy (`None` or an empty
dict).  On success the collected tags are deduplicated keeping first
occurrences and sorted (Python `list.sort`, modelled by the code-point order
`strle`). -/
def tags_matching_tpcreator_spec (tpcreator_spec : Option TpcreatorSpec)
    (tags : List String) : Option (List String) :=
  match tpcreator_spec with
  | none => none
  | some s =>
    if tags = [] then none
    else
      match matchFullTags s.full_tags tags with
      | none => none
      | some res1 =>
        match matchPrefixes s.prefixes tags with
        | none => none
        | some res2 =>
          some (List.insertionSort strle (uniq_sameorder (res1 ++ res2)))

/-! ### Characterization of `tags_matching_tpcreator_spec` -/

theorem matchFullTags_eq_none_iff : ∀ (fts tags : List String),
    matchFullTags fts tags = none ↔ ∃ ft ∈ fts, ft ∉ tags := by
  intro fts
  induction fts with
  | nil => intro tags; simp [matchFullTags]
  | cons ft rest ih =>
    intro tags
    by_cases h : ft ∈ tags
    · rw [show matchFullTags (ft :: rest) tags
          = (matchFullTags rest tags).map (fun r => ft :: r) by simp [matchFullTags, h]]
      rw [Option.map_eq_none', ih tags]
      constructor
      · rintro ⟨x, hx, hnx⟩
        exact ⟨x, List.mem_cons_of_mem _ hx, hnx⟩
      · rintro ⟨x, hx, hnx⟩
        rcases List.mem_cons.mp hx with rfl | hx
        · exact absurd h hnx
        · exact ⟨x, hx, hnx⟩
    · simp only [matchFullTags, if_neg h, true_iff]
      exact ⟨ft, List.mem_cons_self ft rest, h⟩

theorem matchFullTags_eq_some : ∀ (fts tags r : List String),
    matchFullTags fts tags = some r → r = fts := by
  intro fts
  induction fts with
  | nil =>
    intro tags r h
    simp only [matchFullTags, Option.some.injEq] at h
    exact h.symm
  | cons ft rest ih =>
    intro tags r h
    by_cases hm : ft ∈ tags
    · simp only [matchFullTags, if_pos hm, Option.map_eq_some'] at h
      rcases h with ⟨r', hr', hrr⟩
      rw [← hrr, ih tags r' hr']
    · simp [matchFullTags, if_neg hm] at h

theorem matchFullTags_eq_some_self (fts tags : List String)
    (h : ∀ ft ∈ fts, ft ∈ tags) : matchFullTags fts tags = some fts := by
  induction fts with
  | nil => rfl
  | cons ft rest ih =>
    have hft : ft ∈ tags := h ft (List.mem_cons_self ft rest)
    simp only [matchFullTags, if_pos hft]
    rw [ih (fun x hx => h x (List.mem_cons_of_mem _ hx))]
    rfl

theorem matchPrefixes_eq_none_iff : ∀ (ps tags : List String),
    matchPrefixes ps tags = none ↔
      ∃ p ∈ ps, ∀ t ∈ tags, ¬ str_starts_with t p = true := by
  intro ps
  induction ps with
  | nil => intro tags; simp [matchPrefixes]
  | cons p rest ih =>
    intro tags
    by_cases hm : tags.filter (fun t => str_starts_with t p) = []
    · simp only [matchPrefixes, if_pos hm, true_iff]
      refine ⟨p, List.mem_cons_self p rest, ?_⟩
      intro t ht hst
      have : t ∈ tags.filter (fun t => str_starts_with t p) :=
        List.mem_filter.mpr ⟨ht, hst⟩
      rw [hm] at this
      simp at this
    · rw [show matchPrefixes (p :: rest) tags
          = (matchPrefixes rest tags).map
              (fun r => tags.filter (fun t => str_starts_with t p) ++ r) by
        simp [matchPrefixes, hm]]
      rw [Option.map_eq_none', ih tags]
      constructor
      · rintro ⟨q, hq, hnq⟩
        exact ⟨q, List.mem_cons_of_mem _ hq, hnq⟩
      · rintro ⟨q, hq, hnq⟩
        rcases List.mem_cons.mp hq with rfl | hq
        · exfalso
          apply hm
          rw [List.filter_eq_nil_iff]
          intro t ht
          exact hnq t ht
        · exact ⟨q, hq, hnq⟩

theorem matchPrefixes_mem : ∀ (ps tags r : List String),
    matchPrefixes ps tags = some r →
      ∀ x, x ∈ r ↔ ∃ p ∈ ps, x ∈ tags ∧ str_starts_with x p = true := by
  intro ps
  induction ps with
  | nil =>
    intro tags r h x
    simp only [matchPrefixes, Option.some.injEq] at h
    subst h
    simp
  | cons p rest ih =>
    intro tags r h x
    by_cases hm : tags.filter (fun t => str_starts_with t p) = []
    · simp only [matchPrefixes] at h
      rw [if_pos hm] at h
      exact Option.noConfusion h
    · simp only [matchPrefixes, if_neg hm, Option.map_eq_some'] at h
      rcases h with ⟨r', hr', hrr⟩
      subst hrr
      rw [List.mem_append, List.mem_filter, ih tags r' hr' x]
      constructor
      · rintro (⟨hx, hsx⟩ | ⟨q, hq, hxq⟩)
        · exact ⟨p, List.mem_cons_self p rest, hx, hsx⟩
        · exact ⟨q, List.mem_cons_of_mem _ hq, hxq⟩
      · rintro ⟨q, hq, hxq⟩
        rcases List.mem_cons.mp hq with rfl | hq
        · exact Or.inl ⟨hxq.1, hxq.2⟩
        · exact Or.inr ⟨q, hq, hxq⟩

/-- Two sorted duplicate-free string lists with the same members are equal. -/
theorem sorted_nodup_ext {l1 l2 : List String} (s1 : List.Sorted strle l1)
    (s2 : List.Sorted strle l2) (n1 : l1.Nodup) (n2 : l2.Nodup)
    (h : ∀ x, x ∈ l1 ↔ x ∈ l2) : l1 = l2 :=
  List.eq_of_perm_of_sorted ((List.perm_ext_iff_of_nodup n1 n2).mpr h) s1 s2

theorem tags_matching_some_char {s : TpcreatorSpec} {tags r : List String}
    (h : tags_matching_tpcreator_spec (some s) tags = some r) :
    List.Sorted strle r ∧ r.Nodup ∧
      ∀ x, x ∈ r ↔ (x ∈ s.full_tags ∨
        (x ∈ tags ∧ ∃ p ∈ s.prefixes, str_starts_with x p = true)) := by
  unfold tags_matching_tpcreator_spec at h
  by_cases ht : tags = []
  · simp [ht] at h
  · simp only [if_neg ht] at h
    cases h1 : matchFullTags s.full_tags tags with
    | none => rw [h1] at h; simp at h
    | some r1 =>
      cases h2 : matchPrefixes s.prefixes tags with
      | none => rw [h1, h2] at h; simp at h
      | some r2 =>
        rw [h1, h2, Option.some.injEq] at h
        subst h
        refine ⟨List.sorted_insertionSort strle _, ?_, ?_⟩
        · exact ((List.perm_insertionSort strle _).nodup_iff).mpr
            (uniq_sameorder_nodup _)
        · intro x
          rw [(List.perm_insertionSort strle _).mem_iff, uniq_sameorder_mem_iff,
            List.mem_append]
          rw [matchFullTags_eq_some s.full_tags tags r1 h1]
          rw [matchPrefixes_mem s.prefixes tags r2 h2 x]
          constructor
          · rintro (hx | ⟨q, hq, hxt, hxs⟩)
            · exact Or.inl hx
            · exact Or.inr ⟨hxt, q, hq, hxs⟩
          · rintro (hx | ⟨hxt, q, hq, hxs⟩)
            · exact Or.inl hx
            · exact Or.inr ⟨q, hq, hxt, hxs⟩

theorem tags_matching_eq_none_iff (s : TpcreatorSpec) (tags : List String) :
    tags_matching_tpcreator_spec (some s) tags = none ↔
      tags = [] ∨ (∃ ft ∈ s.full_tags, ft ∉ tags) ∨
        (∃ p ∈ s.prefixes, ∀ t ∈ tags, ¬ str_starts_with t p = true) := by
  constructor
  · intro h
    by_cases ht : tags = []
    · exact Or.inl ht
    · unfold tags_matching_tpcreator_spec at h
      simp only [if_neg ht] at h
      cases h1 : matchFullTags s.full_tags tags with
      | none =>
        exact Or.inr (Or.inl ((matchFullTags_eq_none_iff s.full_tags tags).mp h1))
      | some r1 =>
        cases h2 : matchPrefixes s.prefixes tags with
        | none =>
          exact Or.inr (Or.inr ((matchPrefixes_eq_none_iff s.prefixes tags).mp h2))
        | some r2 =>
          rw [h1, h2] at h
          simp at h
  · intro hor
    unfold tags_matching_tpcreator_spec
    rcases hor with ht | hex | hex
    · simp [ht]
    · by_cases ht : tags = []
      · simp [ht]
      · simp only [if_neg ht]
        rw [(matchFullTags_eq_none_iff s.full_tags tags).mpr hex]
    · by_cases ht : tags = []
      · simp [ht]
      · simp only [if_neg ht]
        cases hh : matchFullTags s.full_tags tags with
        | none => rfl
        | some r1 =>
          rw [(matchPrefixes_eq_none_iff s.prefixes tags).mpr hex]

/-! ### Claims about the TagSpec engine -/

/-- **C2**: `tags_matching_tpcreator_spec(spec, tags)` returns `None` exactly
when the spec is empty (falsy), `tags` is empty, some `full_tags` member is
absent from `tags`, or some prefix in `prefixes` is a prefix of no tag;
otherwise it returns the deduplicated, sorted list consisting of every
`full_tags` member plus every tag of `tags` starting with some configured
prefix. -/
theorem claim_C2_match_none_and_result (spec : Option TpcreatorSpec) (tags : List String) :
    (tags_matching_tpcreator_spec spec tags = none ↔
      (spec = none ∨ tags = [] ∨
        ∃ s, spec = some s ∧
          ((∃ ft ∈ s.full_tags, ft ∉ tags) ∨
            (∃ p ∈ s.prefixes, ∀ t ∈ tags, ¬ str_starts_with t p = true)))) ∧
    (∀ s r, spec = some s → tags_matching_tpcreator_spec spec tags = some r →
      List.Sorted strle r ∧ r.Nodup ∧
        ∀ x, x ∈ r ↔ (x ∈ s.full_tags ∨
          (x ∈ tags ∧ ∃ p ∈ s.prefixes, str_starts_with x p = true))) := by
  constructor
  · cases spec with
    | none => simp [tags_matching_tpcreator_spec]
    | some s =>
      rw [tags_matching_eq_none_iff s tags]
      constructor
      · rintro (ht | h)
        · exact Or.inr (Or.inl ht)
        · exact Or.inr (Or.inr ⟨s, rfl, h⟩)
      · rintro (hn | ht | ⟨s', hs', h⟩)
        · exact Option.noConfusion hn
        · exact Or.inl ht
        · rw [Option.some.injEq] at hs'
          subst hs'
          exact Or.inr h
  · intro s r hs hr
    subst hs
    exact tags_matching_some_char hr

/-- Witness for C2 at a concrete spec and tag list. -/
theorem claim_C2_match_none_and_result_witness :
    List.Sorted strle ["a", "b1", "b2"] ∧ (["a", "b1", "b2"] : List String).Nodup ∧
      ∀ x, x ∈ (["a", "b1", "b2"] : List String) ↔
        (x ∈ (["a"] : List String) ∨
          (x ∈ (["b2", "a", "b1", "b1"] : List String) ∧
            ∃ p ∈ (["b"] : List String), str_starts_with x p = true)) :=
  (claim_C2_match_none_and_result (some { full_tags := ["a"], prefixes := ["b"] })
      ["b2", "a", "b1", "b1"]).2
    { full_tags := ["a"], prefixes := ["b"] } ["a", "b1", "b2"] rfl (by decide)

/-- `tags_matching_tpcreator_spec` does not distinguish permuted tag lists. -/
theorem tags_matching_perm_congr (s : TpcreatorSpec) {tags tags' : List String}
    (hperm : tags.Perm tags') :
    tags_matching_tpcreator_spec (some s) tags = tags_matching_tpcreator_spec (some s) tags' := by
  cases h1 : tags_matching_tpcreator_spec (some s) tags with
  | none =>
    cases h2 : tags_matching_tpcreator_spec (some s) tags' with
    | none => rfl
    | some r' =>
      exfalso
      rw [tags_matching_eq_none_iff s tags] at h1
      have h1' : tags_matching_tpcreator_spec (some s) tags' = none := by
        rw [tags_matching_eq_none_iff s tags']
        rcases h1 with ht | ⟨ft, hft, hnt⟩ | ⟨p, hp, hnp⟩
        · refine Or.inl ?_
          rw [ht] at hperm
          exact hperm.symm.eq_nil
        · exact Or.inr (Or.inl ⟨ft, hft, fun hc => hnt (hperm.mem_iff.mpr hc)⟩)
        · exact Or.inr (Or.inr ⟨p, hp, fun t ht => hnp t (hperm.mem_iff.mpr ht)⟩)
      rw [h1'] at h2
      exact Option.noConfusion h2
  | some r =>
    cases h2 : tags_matching_tpcreator_spec (some s) tags' with
    | none =>
      exfalso
      rw [tags_matching_eq_none_iff s tags'] at h2
      have h2' : tags_matching_tpcreator_spec (some s) tags = none := by
        rw [tags_matching_eq_none_iff s tags]
        rcases h2 with ht | ⟨ft, hft, hnt⟩ | ⟨p, hp, hnp⟩
        · refine Or.inl ?_
          rw [ht] at hperm
          exact hperm.eq_nil
        · exact Or.inr (Or.inl ⟨ft, hft, fun hc => hnt (hperm.mem_iff.mp hc)⟩)
        · exact Or.inr (Or.inr ⟨p, hp, fun t ht => hnp t (hperm.mem_iff.mp ht)⟩)
      rw [h2'] at h1
      exact Option.noConfusion h1
    | some r' =>
      obtain ⟨hs1, hn1, hm1⟩ := tags_matching_some_char h1
      obtain ⟨hs2, hn2, hm2⟩ := tags_matching_some_char h2
      have : r = r' := by
        apply sorted_nodup_ext hs1 hs2 hn1 hn2
        intro x
        rw [hm1 x, hm2 x]
        constructor
        · rintro (hx | ⟨hxt, hp⟩)
          · exact Or.inl hx
          · exact Or.inr ⟨hperm.mem_iff.mp hxt, hp⟩
        · rintro (hx | ⟨hxt, hp⟩)
          · exact Or.inl hx
          · exact Or.inr ⟨hperm.mem_iff.mpr hxt, hp⟩
      rw [this]

/-- **C8**: for every spec and every two tag lists that are permutations of
each other, `tags_matching_tpcreator_spec` returns equal results, and any
non-`None` result is sorted and duplicate-free. -/
theorem claim_C8_match_perm_invariant (spec : Option TpcreatorSpec)
    (tags tags' : List String) (hperm : tags.Perm tags') :
    tags_matching_tpcreator_spec spec tags = tags_matching_tpcreator_spec spec tags' ∧
    (∀ r, tags_matching_tpcreator_spec spec tags = some r →
      List.Sorted strle r ∧ r.Nodup) := by
  constructor
  · cases spec with
    | none => rfl
    | some s => exact tags_matching_perm_congr s hperm
  · intro r hr
    cases spec with
    | none => simp [tags_matching_tpcreator_spec] at hr
    | some s =>
      obtain ⟨hs, hn, _⟩ := tags_matching_some_char hr
      exact ⟨hs, hn⟩

/-- Witness for C8 on a concrete permutation. -/
theorem claim_C8_match_perm_invariant_witness :
    (tags_matching_tpcreator_spec (some { full_tags := [], prefixes := ["a"] })
        ["a2", "a1"] =
      tags_matching_tpcreator_spec (some { full_tags := [], prefixes := ["a"] })
        ["a1", "a2"]) ∧
    (List.Sorted strle ["a1", "a2"] ∧ (["a1", "a2"] : List String).Nodup) :=
  ⟨(claim_C8_match_perm_invariant (some { full_tags := [], prefixes := ["a"] })
      ["a2", "a1"] ["a1", "a2"] (by decide)).1,
    (claim_C8_match_perm_invariant (some { full_tags := [], prefixes := ["a"] })
      ["a2", "a1"] ["a1", "a2"] (by decide)).2 ["a1", "a2"] (by decide)⟩

/-- Python truthiness of an `Option (List String)` value: `None` and the
empty list are falsy (`if not matching_tags` in `tpcreator_mod`). -/
def optListTruthy (o : Option (List String)) : Bool :=
  match o with
  | none => false
  | some l => !(l = [])

/-- **C10**: for the spec compiled from an empty UISpec (full_tags and
prefixes both empty — a non-empty dict, hence truthy) and any non-empty tag
list, the match returns the empty list rather than `None`, and the
truthiness test used by callers treats that result as a non-match. -/
theorem claim_C10_empty_uispec_matches_empty (tags : List String) (h : tags ≠ []) :
    tags_matching_tpcreator_spec (some (tpcreator_spec_from_tpcreator_uispec [])) tags
        = some [] ∧
      optListTruthy (tags_matching_tpcreator_spec
        (some (tpcreator_spec_from_tpcreator_uispec [])) tags) = false := by
  have hres : tags_matching_tpcreator_spec
      (some (tpcreator_spec_from_tpcreator_uispec [])) tags = some [] := by
    unfold tags_matching_tpcreator_spec
    simp only [if_neg h]
    rfl
  exact ⟨hres, by rw [hres]; rfl⟩

/-- Witness for C10 at a concrete non-empty tag list. -/
theorem claim_C10_empty_uispec_matches_empty_witness :
    tags_matching_tpcreator_spec (some (tpcreator_spec_from_tpcreator_uispec []))
        ["x"] = some [] ∧
      optListTruthy (tags_matching_tpcreator_spec
        (some (tpcreator_spec_from_tpcreator_uispec [])) ["x"]) = false :=
  claim_C10_empty_uispec_matches_empty ["x"] (by decide)

/-! ### Round trip: compile then match (claim C4) -/

theorem listIsPref_self : ∀ l : List α, [DecidableEq α] → listIsPref l l = true := by
  intro l _
  induction l with
  | nil => rfl
  | cons a l ih => simp [listIsPref, ih]

theorem listIsPref_takeWhile_sep (sep : Char) :
    ∀ l : List Char, sep ∈ l →
      listIsPref (l.takeWhile (fun c => c ≠ sep) ++ [sep]) l = true := by
  intro l
  induction l with
  | nil => intro h; simp at h
  | cons a l ih =>
    intro h
    by_cases ha : a = sep
    · subst ha
      simp [List.takeWhile_cons, listIsPref]
    · have hl : sep ∈ l := by
        rcases List.mem_cons.mp h with h' | h'
        · exact absurd h'.symm ha
        · exact h'
      simp only [List.takeWhile_cons, decide_eq_true_eq]
      rw [if_pos ha]
      simp only [List.cons_append, listIsPref, if_pos rfl]
      exact ih hl

theorem tpcreator_prefix_of_data (t : String) :
    (tpcreator_prefix_of t).data
      = t.data.takeWhile (fun c => c ≠ TPCREATOR_SEPARATOR) ++ [TPCREATOR_SEPARATOR] := rfl

/-- Every suggested entry's prefix is a textual prefix of its own tag. -/
theorem suggested_entry_starts (t : String) :
    str_starts_with t (suggested_entry t).pfx = true := by
  unfold suggested_entry
  by_cases h : TPCREATOR_SEPARATOR ∈ t.data
  · rw [if_pos h]
    unfold str_starts_with
    rw [tpcreator_prefix_of_data]
    exact listIsPref_takeWhile_sep TPCREATOR_SEPARATOR t.data h
  · rw [if_neg h]
    exact listIsPref_self t.data

theorem suggested_entry_tag (t : String) : (suggested_entry t).tag = t := by
  unfold suggested_entry
  by_cases h : TPCREATOR_SEPARATOR ∈ t.data
  · rw [if_pos h]
  · rw [if_neg h]

theorem suggested_map_tag (tags : List String) :
    (suggested_tpcreator_uispec tags).map UEntry.tag = tags := by
  unfold suggested_tpcreator_uispec
  rw [List.map_map]
  have : UEntry.tag ∘ suggested_entry = id := by
    funext t
    exact suggested_entry_tag t
  rw [this, List.map_id]

/-- Membership in the compiled `prefixes` list. -/
theorem compiled_prefixes_mem (uispec : List UEntry) (p : String) :
    p ∈ (tpcreator_spec_from_tpcreator_uispec uispec).prefixes ↔
      p ∈ (uispec.filter (fun d => ¬ d.tag = d.pfx)).map (fun d => d.pfx) := by
  unfold tpcreator_spec_from_tpcreator_uispec
  rw [(List.perm_insertionSort _ _).mem_iff, uniq_sameorder_mem_iff]

/-- **C4** (amended): compiling a UISpec built from a tag list and matching
against that same tag list returns `None` when the tag list is empty, and
otherwise a sorted duplicate-free list whose members are exactly the
UISpec's `tag` values (which are exactly the tags). -/
theorem claim_C4_compile_match_round_trip (tags : List String) :
    (tags = [] →
      tags_matching_tpcreator_spec
        (some (tpcreator_spec_from_tpcreator_uispec (suggested_tpcreator_uispec tags)))
        tags = none) ∧
    (tags ≠ [] →
      ∃ r, tags_matching_tpcreator_spec
          (some (tpcreator_spec_from_tpcreator_uispec (suggested_tpcreator_uispec tags)))
          tags = some r ∧
        List.Sorted strle r ∧ r.Nodup ∧
        (∀ x, x ∈ r ↔ x ∈ (suggested_tpcreator_uispec tags).map UEntry.tag)) ∧
    (suggested_tpcreator_uispec tags).map UEntry.tag = tags := by
  refine ⟨?_, ?_, suggested_map_tag tags⟩
  · intro h
    exact (tags_matching_eq_none_iff _ tags).mpr (Or.inl h)
  · intro hne
    have hentry_tag : ∀ e ∈ suggested_tpcreator_uispec tags, e.tag ∈ tags := by
      intro e he
      rcases List.mem_map.mp he with ⟨t, ht, hte⟩
      rw [← hte, suggested_entry_tag]
      exact ht
    have hentry_starts : ∀ e ∈ suggested_tpcreator_uispec tags,
        str_starts_with e.tag e.pfx = true := by
      intro e he
      rcases List.mem_map.mp he with ⟨t, ht, hte⟩
      rw [← hte, suggested_entry_tag]
      exact suggested_entry_starts t
    have hfull : ∀ ft ∈ (tpcreator_spec_from_tpcreator_uispec
        (suggested_tpcreator_uispec tags)).full_tags, ft ∈ tags := by
      intro ft hft
      unfold tpcreator_spec_from_tpcreator_uispec at hft
      rcases List.mem_map.mp hft with ⟨e, he, hee⟩
      rw [← hee]
      exact hentry_tag e (List.mem_of_mem_filter he)
    have hnotnone : tags_matching_tpcreator_spec
        (some (tpcreator_spec_from_tpcreator_uispec (suggested_tpcreator_uispec tags)))
        tags ≠ none := by
      intro hnone
      rw [tags_matching_eq_none_iff] at hnone
      rcases hnone with ht | ⟨ft, hft, hnt⟩ | ⟨p, hp, hnp⟩
      · exact hne ht
      · exact hnt (hfull ft hft)
      · rw [compiled_prefixes_mem] at hp
        rcases List.mem_map.mp hp with ⟨e, he, hep⟩
        have he' := List.mem_of_mem_filter he
        apply hnp e.tag (hentry_tag e he')
        rw [← hep]
        exact hentry_starts e he'
    cases hres : tags_matching_tpcreator_spec
        (some (tpcreator_spec_from_tpcreator_uispec (suggested_tpcreator_uispec tags)))
        tags with
    | none => exact absurd hres hnotnone
    | some r =>
      obtain ⟨hsort, hnodup, hmem⟩ := tags_matching_some_char hres
      refine ⟨r, rfl, hsort, hnodup, ?_⟩
      intro x
      rw [suggested_map_tag tags, hmem x]
      constructor
      · rintro (hx | ⟨hxt, _⟩)
        · exact hfull x hx
        · exact hxt
      · intro hxt
        have hx_entry : suggested_entry x ∈ suggested_tpcreator_uispec tags :=
          List.mem_map.mpr ⟨x, hxt, rfl⟩
        by_cases hc : (suggested_entry x).tag = (suggested_entry x).pfx
        · left
          unfold tpcreator_spec_from_tpcreator_uispec
          apply List.mem_map.mpr
          refine ⟨suggested_entry x, ?_, suggested_entry_tag x⟩
          apply List.mem_filter.mpr
          exact ⟨hx_entry, by simp [hc]⟩
        · right
          refine ⟨hxt, (suggested_entry x).pfx, ?_, ?_⟩
          · rw [compiled_prefixes_mem]
            apply List.mem_map.mpr
            refine ⟨suggested_entry x, ?_, rfl⟩
            apply List.mem_filter.mpr
            exact ⟨hx_entry, by simp [hc]⟩
          · have := suggested_entry_starts x
            rw [suggested_entry_tag x] at *
            exact this

/-- Counterexample to C4 as stated: for the empty tag list the round trip
returns `None`, not the UISpec's (empty) list of tag values. -/
theorem claim_C4_counterexample :
    tags_matching_tpcreator_spec
        (some (tpcreator_spec_from_tpcreator_uispec (suggested_tpcreator_uispec [])))
        [] ≠
      some ((suggested_tpcreator_uispec []).map UEntry.tag) := by
  decide

/-- Witness for the amended C4 at a concrete tag list. -/
theorem claim_C4_compile_match_round_trip_witness :
    ∃ r, tags_matching_tpcreator_spec
        (some (tpcreator_spec_from_tpcreator_uispec
          (suggested_tpcreator_uispec ["b", "a:1"])))
        ["b", "a:1"] = some r ∧
      List.Sorted strle r ∧ r.Nodup ∧
      (∀ x, x ∈ r ↔ x ∈ (suggested_tpcreator_uispec ["b", "a:1"]).map UEntry.tag) :=
  (claim_C4_compile_match_round_trip ["b", "a:1"]).2.1 (by decide)

/-! ### Tile model

The `mqe.tiles` and `mqe.dataseries` modules are not part of the sources
under verification; the tile record, its option mapping and the series-spec
canonicalization are modelled from the spec (§3, §4.2) as stated in the doc
comments below. -/

/-- Modelled from the spec: a data series specification
(`mqe.dataseries.SeriesSpec`), opaque to this module. -/
structure SeriesSpec where
  sdata : String
deriving Repr, DecidableEq

/-- The `tpcreator_data` block of a derived tile's `tile_options`
(`master_tile_id`, `master_tpcreator_uispec`, `master_tpcreator_spec` and the
optional cached `tile_title_base`). -/
structure TpcreatorData where
  master_tile_id : Nat
  master_tpcreator_uispec : List UEntry
  master_tpcreator_spec : TpcreatorSpec
  tile_title_base : Option String
deriving Repr, DecidableEq

/-- The fresh `{}` dict assigned when `tile_options` has no
`'tpcreator_data'` key yet: every field except `tile_title_base` is
unconditionally overwritten before the options are returned, so the dummy
values below never escape; an absent `tile_title_base` key is `none`. -/
def emptyTpcreatorData : TpcreatorData :=
  { master_tile_id := 0,
    master_tpcreator_uispec := [],
    master_tpcreator_spec := { full_tags := [], prefixes := [] },
    tile_title_base := none }

/-- Modelled from the spec (§3): a tile's `tile_options` mapping.  `tw_type`,
`tags` and the series list (`series_configs`) are always present;
`tile_title`, `tpcreator_uispec` and `tpcreator_data` are optional keys;
`extra` stands for all remaining keys of the mapping, opaque to this
module. -/
structure TileOptions where
  tw_type : String
  tags : List String
  series_configs : List SeriesSpec
  tile_title : Option String
  tpcreator_uispec : Option (List UEntry)
  tpcreator_data : Option TpcreatorData
  extra : List (String × String)
deriving Repr, DecidableEq

/-- Modelled from the spec: a tile row `(dashboard_id, tile_id)` with its
options. -/
structure Tile where
  tile_id : Nat
  dashboard_id : Nat
  tile_options : TileOptions
deriving Repr, DecidableEq

/-- Modelled from the spec: `tile.series_specs()` returns the series specs
stored in the tile's options. -/
def Tile.series_specs (t : Tile) : List SeriesSpec := t.tile_options.series_configs

/-- Modelled from the spec: `tile.tags` is the tile's tag list. -/
def Tile.tags (t : Tile) : List String := t.tile_options.tags

/-- Modelled from the spec (§3): a tile is a master tile iff `tpcreator_data`
is absent and `tpcreator_uispec` is present. -/
def Tile.is_master_tile (t : Tile) : Bool :=
  t.tile_options.tpcreator_data.isNone && t.tile_options.tpcreator_uispec.isSome

/-- Python truthiness of an optional string value: present and non-empty. -/
def strTruthy : Option String → Bool
  | none => false
  | some s => !(s = "")

/-- Python `pat in s` substring test (the source only reaches it with the
postfix strings produced by the widget title generator). -/
def strContains (s pat : String) : Bool :=
  if pat = "" then true else 2 ≤ (s.splitOn pat).length

/-! ### Tile derivation (`mqe/tpcreator.py` lines 219-263) -/

/-- `_unique_series_specs(ss_list)`: deduplication by the canonical
series-spec identity `dataseries.series_spec_for_default_options`, an
external collaborator passed here as the oracle parameter `canon`. -/
def _unique_series_specs (canon : SeriesSpec → SeriesSpec)
    (ss_list : List SeriesSpec) : List SeriesSpec :=
  uniq_sameorder_key canon ss_list

/-- `_tile_options_of_tpcreated(master_tile, tpcreator_spec, tags,
old_tpcreated=None)`.  `canon` is the series-spec canonicalization and
`pfgen` the widget title-postfix generator
(`tile.tilewidget.generate_tile_title_postfix()`), both external
collaborators.  Returns `none` when the source would raise (`KeyError` on a
master without `'tpcreator_uispec'`).  The intermediate
`Tile.insert(..., skip_db=True, ...)` is modelled from the spec: the
resulting options are the master's options minus `series_configs`, `tags`
and `tile_title`, with `tw_type`, `tags` and the series list set from the
tile config. -/
def _tile_options_of_tpcreated (canon : SeriesSpec → SeriesSpec)
    (pfgen : TileOptions → String) (master_tile : Tile)
    (tpcreator_spec : TpcreatorSpec) (tags : List String)
    (old_tpcreated : Option Tile := none) : Option TileOptions :=
  match master_tile.tile_options.tpcreator_uispec with
  | none => none
  | some uispec =>
    let series_specs :=
      match old_tpcreated with
      | some old => _unique_series_specs canon (master_tile.series_specs ++ old.series_specs)
      | none => master_tile.series_specs
    let base_opts : TileOptions :=
      { tw_type := master_tile.tile_options.tw_type,
        tags := tags,
        series_configs := series_specs,
        tile_title := none,
        tpcreator_uispec := master_tile.tile_options.tpcreator_uispec,
        tpcreator_data := master_tile.tile_options.tpcreator_data,
        extra := master_tile.tile_options.extra }
    let d0 :=
      match base_opts.tpcreator_data with
      | some d => d
      | none => emptyTpcreatorData
    let base :=
      match master_tile.tile_options.tile_title with
      | none => d0.tile_title_base
      | some t =>
        if t = "" then d0.tile_title_base
        else
          let pf := pfgen master_tile.tile_options
          some (if pf = "" then t else (t.replace pf "").trim)
    some { base_opts with
      tpcreator_uispec := none,
      tpcreator_data := some
        { master_tile_id := master_tile.tile_id,
          master_tpcreator_uispec := uispec,
          master_tpcreator_spec := tpcreator_spec,
          tile_title_base := base } }

/-- `_sync_tpcreator_data(master_tile, tpcreated, tpcreator_spec)`: a deep
copy of the derived tile's options with only the `tpcreator_data` linkage
overwritten.  `none` models the `KeyError` on a master without
`'tpcreator_uispec'`. -/
def _sync_tpcreator_data (master_tile tpcreated : Tile)
    (tpcreator_spec : TpcreatorSpec) : Option TileOptions :=
  match master_tile.tile_options.tpcreator_uispec with
  | none => none
  | some uispec =>
    let new_to := tpcreated.tile_options
    let d0 :=
      match new_to.tpcreator_data with
      | some d => d
      | none => emptyTpcreatorData
    some { new_to with
      tpcreator_data := some
        { d0 with
          master_tile_id := master_tile.tile_id,
          master_tpcreator_uispec := uispec,
          master_tpcreator_spec := tpcreator_spec } }

/-- `make_master_from_tpcreated(old_master, tpcreated)` (lines 296-320),
returning the options of the inserted tile.  `none` models an assertion
failure or the `KeyError` raised by `del new_master_to['tpcreator_data']`.
When the derived tile has a truthy title the source computes
`tile_title.replace(postfix, '').strip()` and discards the result (no
assignment), so the options keep the derived tile's title verbatim. -/
def make_master_from_tpcreated (pfgen : TileOptions → String)
    (old_master tpcreated : Tile) : Option TileOptions :=
  if old_master.is_master_tile = false then none
  else if tpcreated.is_master_tile = true then none
  else
    match old_master.tile_options.tpcreator_uispec with
    | none => none
    | some uispec =>
      match tpcreated.tile_options.tpcreator_data with
      | none => none
      | some _ =>
        let new_master_to := { tpcreated.tile_options with
          tpcreator_uispec := some uispec,
          tpcreator_data := none }
        match old_master.tile_options.tile_title with
        | none => some new_master_to
        | some old_master_title =>
          if old_master_title = "" ∨ strTruthy new_master_to.tile_title then
            some new_master_to
          else
            let old_pf := pfgen old_master.tile_options
            let title :=
              if strContains old_master_title old_pf then
                old_master_title.replace old_pf (pfgen tpcreated.tile_options)
              else old_master_title
            some { new_master_to with tile_title := some title }

/-! ### Claims about tile derivation -/

/-- **C3**: deriving a new tile's options (no existing derived tile)
copies `tw_type` and the master's other option keys (except
`series_configs`, `tags`, `tile_title`), sets `tags` to the matched tags,
drops `tpcreator_uispec`, and fills `tpcreator_data` with the master's id,
a copy of its uispec and the given match spec. -/
theorem claim_C3_derived_tile_options (canon : SeriesSpec → SeriesSpec)
    (pfgen : TileOptions → String) (master_tile : Tile) (tpcreator_spec : TpcreatorSpec)
    (tags : List String) (uispec : List UEntry)
    (h : master_tile.tile_options.tpcreator_uispec = some uispec) :
    ∃ topts, _tile_options_of_tpcreated canon pfgen master_tile tpcreator_spec tags none
        = some topts ∧
      topts.tw_type = master_tile.tile_options.tw_type ∧
      topts.extra = master_tile.tile_options.extra ∧
      topts.tags = tags ∧
      topts.tpcreator_uispec = none ∧
      ∃ d, topts.tpcreator_data = some d ∧
        d.master_tile_id = master_tile.tile_id ∧
        d.master_tpcreator_uispec = uispec ∧
        d.master_tpcreator_spec = tpcreator_spec := by
  unfold _tile_options_of_tpcreated
  rw [h]
  exact ⟨_, rfl, rfl, rfl, rfl, rfl, _, rfl, rfl, rfl, rfl⟩

/-- Witness for C3 at a concrete master tile. -/
theorem claim_C3_derived_tile_options_witness :
    ∃ topts, _tile_options_of_tpcreated (fun s => s) (fun _ => "")
        { tile_id := 7, dashboard_id := 1,
          tile_options :=
            { tw_type := "Range", tags := ["m"], series_configs := [{ sdata := "s0" }],
              tile_title := none,
              tpcreator_uispec := some [{ tag := "m", pfx := "m" }],
              tpcreator_data := none, extra := [("colors", "red")] } }
        { full_tags := ["m"], prefixes := [] } ["m2"] none = some topts ∧
      topts.tw_type = "Range" ∧
      topts.extra = [("colors", "red")] ∧
      topts.tags = ["m2"] ∧
      topts.tpcreator_uispec = none ∧
      ∃ d, topts.tpcreator_data = some d ∧
        d.master_tile_id = 7 ∧
        d.master_tpcreator_uispec = [{ tag := "m", pfx := "m" }] ∧
        d.master_tpcreator_spec = { full_tags := ["m"], prefixes := [] } :=
  claim_C3_derived_tile_options (fun s => s) (fun _ => "") _ _ _ _ rfl

/-- **C6**: re-deriving with an existing derived tile produces a series list
that is the master's series specs followed by the existing tile's, with
later canonical duplicates removed: the result is a sublist of the
concatenation (so the master's series keep their precedence in ordering),
its canonical keys are duplicate-free and cover the concatenation, and each
kept spec is the first element of the concatenation with its canonical
key. -/
theorem claim_C6_rederive_series_union (canon : SeriesSpec → SeriesSpec)
    (pfgen : TileOptions → String) (master_tile old_tpcreated : Tile)
    (tpcreator_spec : TpcreatorSpec) (tags : List String) (uispec : List UEntry)
    (h : master_tile.tile_options.tpcreator_uispec = some uispec) :
    ∃ topts, _tile_options_of_tpcreated canon pfgen master_tile tpcreator_spec tags
        (some old_tpcreated) = some topts ∧
      topts.series_configs.Sublist (master_tile.series_specs ++ old_tpcreated.series_specs) ∧
      (topts.series_configs.map canon).Nodup ∧
      (∀ s ∈ master_tile.series_specs ++ old_tpcreated.series_specs,
        canon s ∈ topts.series_configs.map canon) ∧
      (∀ x ∈ topts.series_configs,
        (master_tile.series_specs ++ old_tpcreated.series_specs).find?
          (fun y => decide (canon y = canon x)) = some x) := by
  unfold _tile_options_of_tpcreated
  rw [h]
  refine ⟨_, rfl, ?_, ?_, ?_, ?_⟩
  · exact uniq_sameorder_key_sublist canon _
  · exact uniq_sameorder_key_keys_nodup canon _
  · intro s hs
    exact uniq_sameorder_key_covers canon hs
  · intro x hx
    exact uniq_sameorder_key_find canon hx

/-- Witness for C6 at concrete tiles (the duplicate spec of the derived tile
is dropped, the master's copy is kept first). -/
theorem claim_C6_rederive_series_union_witness :
    ∃ topts, _tile_options_of_tpcreated (fun s => s) (fun _ => "")
        { tile_id := 7, dashboard_id := 1,
          tile_options :=
            { tw_type := "Range", tags := ["m"],
              series_configs := [{ sdata := "s0" }, { sdata := "s1" }],
              tile_title := none,
              tpcreator_uispec := some [{ tag := "m", pfx := "m" }],
              tpcreator_data := none, extra := [] } }
        { full_tags := ["m"], prefixes := [] } ["m2"]
        (some { tile_id := 8, dashboard_id := 1,
                tile_options :=
                  { tw_type := "Range", tags := ["m2"],
                    series_configs := [{ sdata := "s1" }, { sdata := "s2" }],
                    tile_title := none, tpcreator_uispec := none,
                    tpcreator_data := none, extra := [] } }) = some topts ∧
      topts.series_configs.Sublist
        ([{ sdata := "s0" }, { sdata := "s1" }] ++ [{ sdata := "s1" }, { sdata := "s2" }]) ∧
      (topts.series_configs.map (fun s => s)).Nodup :=
  match claim_C6_rederive_series_union (fun s => s) (fun _ => "")
      { tile_id := 7, dashboard_id := 1,
        tile_options :=
          { tw_type := "Range", tags := ["m"],
            series_configs := [{ sdata := "s0" }, { sdata := "s1" }],
            tile_title := none,
            tpcreator_uispec := some [{ tag := "m", pfx := "m" }],
            tpcreator_data := none, extra := [] } }
      { tile_id := 8, dashboard_id := 1,
        tile_options :=
          { tw_type := "Range", tags := ["m2"],
            series_configs := [{ sdata := "s1" }, { sdata := "s2" }],
            tile_title := none, tpcreator_uispec := none,
            tpcreator_data := none, extra := [] } }
      { full_tags := ["m"], prefixes := [] } ["m2"] [{ tag := "m", pfx := "m" }] rfl with
  | ⟨topts, heq, hsub, hnodup, _, _⟩ => ⟨topts, heq, hsub, hnodup⟩

/-- **C9**: when the derived tile passed to `make_master_from_tpcreated` has
a non-empty title of its own, the new master's options keep that title
verbatim: the postfix-stripped string computed inside the function is never
stored. -/
theorem claim_C9_promoted_title_kept_verbatim (pfgen : TileOptions → String)
    (old_master tpcreated : Tile) (t : String)
    (h1 : old_master.is_master_tile = true)
    (h2 : tpcreated.is_master_tile = false)
    (h3 : (tpcreated.tile_options.tpcreator_data).isSome = true)
    (h4 : tpcreated.tile_options.tile_title = some t)
    (h5 : t ≠ "") :
    ∃ topts, make_master_from_tpcreated pfgen old_master tpcreated = some topts ∧
      topts.tile_title = some t := by
  obtain ⟨uispec, hui⟩ : ∃ u, old_master.tile_options.tpcreator_uispec = some u := by
    unfold Tile.is_master_tile at h1
    rcases hu : old_master.tile_options.tpcreator_uispec with _ | u
    · rw [hu] at h1
      simp [Option.isSome] at h1
    · exact ⟨u, rfl⟩
  obtain ⟨d, hd⟩ : ∃ d, tpcreated.tile_options.tpcreator_data = some d := by
    rcases hdd : tpcreated.tile_options.tpcreator_data with _ | d
    · rw [hdd] at h3
      simp [Option.isSome] at h3
    · exact ⟨d, rfl⟩
  unfold make_master_from_tpcreated
  rw [h1, h2, hui, hd]
  simp only [Bool.true_eq_false, if_false, Bool.false_eq_true, if_false]
  have htr : strTruthy tpcreated.tile_options.tile_title = true := by
    rw [h4]
    simp [strTruthy, h5]
  cases homt : old_master.tile_options.tile_title with
  | none => exact ⟨_, rfl, h4⟩
  | some omt =>
    simp only [htr, or_true, if_true]
    exact ⟨_, rfl, h4⟩

/-- Witness for C9 at a concrete master/derived pair whose derived title
contains the generated postfix. -/
theorem claim_C9_promoted_title_kept_verbatim_witness :
    ∃ topts, make_master_from_tpcreated (fun _ => "[m2]")
        { tile_id := 7, dashboard_id := 1,
          tile_options :=
            { tw_type := "Range", tags := ["m"], series_configs := [],
              tile_title := some "CPU [m]",
              tpcreator_uispec := some [{ tag := "m", pfx := "m" }],
              tpcreator_data := none, extra := [] } }
        { tile_id := 8, dashboard_id := 1,
          tile_options :=
            { tw_type := "Range", tags := ["m2"], series_configs := [],
              tile_title := some "CPU [m2]",
              tpcreator_uispec := none,
              tpcreator_data := some
                { master_tile_id := 7, master_tpcreator_uispec := [],
                  master_tpcreator_spec := { full_tags := [], prefixes := [] },
                  tile_title_base := some "CPU" },
              extra := [] } } = some topts ∧
      topts.tile_title = some "CPU [m2]" :=
  claim_C9_promoted_title_kept_verbatim (fun _ => "[m2]") _ _ "CPU [m2]"
    rfl rfl rfl rfl (by decide)

/-! ### Layout property snapshots and master replacement
(`mqe/tpcreator.py` lines 269-293) -/

/-- The property snapshot a layout resolves for a tile id
(`layout.get_tile_props` / the values of `get_current_props_by_tile_id`):
report id, master flag, the master's compiled spec, the derived tile's
master link, and tags.  Tile and dashboard ids are opaque storage ids
(UUIDs), modelled as `Nat`; an absent `master_id` key is `none`. -/
structure TileProps where
  report_id : Nat
  is_master : Bool
  tpcreator_spec : Option TpcreatorSpec
  master_id : Option Nat
  tags : List String
deriving Repr, DecidableEq

/-- Dict lookup in a layout's props-by-tile-id mapping (modelled as an
association list in iteration order). -/
def lookupProps (items : List (Nat × TileProps)) (tile_id : Nat) : Option TileProps :=
  (items.find? (fun it => it.1 = tile_id)).map (fun it => it.2)

/-- Modelled from the spec: `layout.get_tpcreated_tile_ids(master_tile_id)` —
the ids of the layout's tiles whose `master_id` property equals the given
master tile id. -/
def get_tpcreated_tile_ids (items : List (Nat × TileProps)) (master_tile_id : Nat) :
    List Nat :=
  (items.filter (fun it => it.2.master_id = some master_tile_id)).map (fun it => it.1)

/-- The sequential loop building a list of results from a fallible step,
propagating the first failure (a raised exception). -/
def mapMO (f : α → Option β) : List α → Option (List β)
  | [] => some []
  | x :: xs =>
    match f x with
    | none => none
    | some y => (mapMO f xs).map (fun ys => y :: ys)

theorem mapMO_some_of_forall (f : α → Option β) :
    ∀ l : List α, (∀ x ∈ l, (f x).isSome = true) → ∃ ys, mapMO f l = some ys := by
  intro l
  induction l with
  | nil => intro _; exact ⟨[], rfl⟩
  | cons x xs ih =>
    intro h
    have hx := h x (List.mem_cons_self x xs)
    rcases hfx : f x with _ | y
    · rw [hfx] at hx
      simp [Option.isSome] at hx
    · obtain ⟨ys, hys⟩ := ih (fun z hz => h z (List.mem_cons_of_mem _ hz))
      exact ⟨y :: ys, by simp [mapMO, hfx, hys]⟩

theorem mapMO_length (f : α → Option β) :
    ∀ (l : List α) (ys : List β), mapMO f l = some ys → ys.length = l.length := by
  intro l
  induction l with
  | nil =>
    intro ys h
    simp only [mapMO, Option.some.injEq] at h
    rw [← h]
    rfl
  | cons x xs ih =>
    intro ys h
    rcases hfx : f x with _ | y
    · rw [mapMO, hfx] at h
      exact Option.noConfusion h
    · rw [mapMO, hfx, Option.map_eq_some'] at h
      rcases h with ⟨ys', hys', hyy⟩
      rw [← hyy, List.length_cons, ih ys' hys']
      rfl

theorem mapMO_zip (f : α → Option β) :
    ∀ (l : List α) (ys : List β), mapMO f l = some ys →
      ∀ p ∈ l.zip ys, f p.1 = some p.2 := by
  intro l
  induction l with
  | nil => intro ys h p hp; simp at hp
  | cons x xs ih =>
    intro ys h p hp
    rcases hfx : f x with _ | y
    · rw [mapMO, hfx] at h
      exact Option.noConfusion h
    · rw [mapMO, hfx, Option.map_eq_some'] at h
      rcases h with ⟨ys', hys', hyy⟩
      rw [← hyy] at hp
      rcases List.mem_cons.mp hp with hp | hp
      · rw [hp]
        exact hfx
      · exact ih ys' hys' p hp

/-- With equally long lists, every element of the left list appears in the
zip. -/
theorem mem_zip_left : ∀ (l : List α) (l' : List β), l.length = l'.length →
    ∀ x ∈ l, ∃ y, (x, y) ∈ l.zip l' := by
  intro l
  induction l with
  | nil => intro l' _ x hx; simp at hx
  | cons a as ih =>
    intro l' hlen x hx
    cases l' with
    | nil => simp at hlen
    | cons b bs =>
      rcases List.mem_cons.mp hx with hx | hx
      · subst hx
        exact ⟨b, List.mem_cons_self _ _⟩
      · obtain ⟨y, hy⟩ := ih bs (by simpa using hlen) x hx
        exact ⟨y, List.mem_cons_of_mem _ hy⟩

/-- Modelled from the spec: `Tile.insert_with_tile_options_multi` creates one
tile per option set on the dashboard, in order; the storage-assigned id of
each new row is supplied by the oracle `fresh`. -/
def insert_with_tile_options_multi (dashboard_id : Nat) (fresh : TileOptions → Nat)
    (tos : List TileOptions) : List Tile :=
  tos.map (fun topts =>
    { tile_id := fresh topts, dashboard_id := dashboard_id, tile_options := topts })

/-- `replace_tpcreated(layout, old_master, new_master, sync_tpcreated=True,
skip_replacements=set())` (lines 269-293): recompute the options of every
derived tile of `old_master` (minus `skip_replacements`) against
`new_master` — by full re-derivation when `sync_tpcreated`, else by the
parentage-only resync — bulk-insert the replacements and return the mapping
from each original derived tile to its replacement.  The layout is given by
its props items `items`, the tile store by `store`; `none` models a raised
exception (`get_tile_props` returning `None`, a missing `'tpcreator_spec'`
key, or a master without `'tpcreator_uispec'`). -/
def replace_tpcreated (canon : SeriesSpec → SeriesSpec) (pfgen : TileOptions → String)
    (items : List (Nat × TileProps)) (store : Nat → Option Tile)
    (fresh : TileOptions → Nat) (old_master new_master : Tile)
    (sync_tpcreated : Bool) (skip_replacements : List Nat) :
    Option (List (Tile × Tile)) :=
  match lookupProps items old_master.tile_id with
  | none => none
  | some props =>
    match props.tpcreator_spec with
    | none => none
    | some tpcreator_spec =>
      let ids0 := get_tpcreated_tile_ids items old_master.tile_id
      let tpcreated_tile_id_list :=
        if skip_replacements = [] then ids0
        else ids0.filter (fun tid => tid ∉ skip_replacements)
      let tpcreated_tiles := tpcreated_tile_id_list.filterMap store
      match mapMO (fun tile =>
          if sync_tpcreated then
            _tile_options_of_tpcreated canon pfgen new_master tpcreator_spec
              tile.tags (some tile)
          else
            _sync_tpcreator_data new_master tile tpcreator_spec) tpcreated_tiles with
      | none => none
      | some tpcreated_tiles_new_tos =>
        let tpcreated_tiles_repl :=
          insert_with_tile_options_multi old_master.dashboard_id fresh
            tpcreated_tiles_new_tos
        some (tpcreated_tiles.zip tpcreated_tiles_repl)

theorem tile_options_of_tpcreated_isSome (canon : SeriesSpec → SeriesSpec)
    (pfgen : TileOptions → String) (master_tile : Tile) (tpcreator_spec : TpcreatorSpec)
    (tags : List String) (old_tpcreated : Option Tile) (uispec : List UEntry)
    (h : master_tile.tile_options.tpcreator_uispec = some uispec) :
    (_tile_options_of_tpcreated canon pfgen master_tile tpcreator_spec tags
      old_tpcreated).isSome = true := by
  unfold _tile_options_of_tpcreated
  rw [h]
  rfl

theorem sync_tpcreator_data_isSome (master_tile tpcreated : Tile)
    (tpcreator_spec : TpcreatorSpec) (uispec : List UEntry)
    (h : master_tile.tile_options.tpcreator_uispec = some uispec) :
    (_sync_tpcreator_data master_tile tpcreated tpcreator_spec).isSome = true := by
  unfold _sync_tpcreator_data
  rw [h]
  rfl

theorem tile_options_of_tpcreated_linkage (canon : SeriesSpec → SeriesSpec)
    (pfgen : TileOptions → String) (master_tile : Tile) (tpcreator_spec : TpcreatorSpec)
    (tags : List String) (old_tpcreated : Option Tile) (topts : TileOptions)
    (h : _tile_options_of_tpcreated canon pfgen master_tile tpcreator_spec tags
      old_tpcreated = some topts) :
    ∃ d, topts.tpcreator_data = some d ∧ d.master_tile_id = master_tile.tile_id ∧
      topts.tags = tags := by
  unfold _tile_options_of_tpcreated at h
  cases hui : master_tile.tile_options.tpcreator_uispec with
  | none =>
    rw [hui] at h
    exact Option.noConfusion h
  | some uispec =>
    rw [hui, Option.some.injEq] at h
    rw [← h]
    exact ⟨_, rfl, rfl, rfl⟩

theorem sync_tpcreator_data_linkage (master_tile tpcreated : Tile)
    (tpcreator_spec : TpcreatorSpec) (topts : TileOptions)
    (h : _sync_tpcreator_data master_tile tpcreated tpcreator_spec = some topts) :
    ∃ d, topts.tpcreator_data = some d ∧ d.master_tile_id = master_tile.tile_id ∧
      topts.tags = tpcreated.tile_options.tags := by
  unfold _sync_tpcreator_data at h
  cases hui : master_tile.tile_options.tpcreator_uispec with
  | none =>
    rw [hui] at h
    exact Option.noConfusion h
  | some uispec =>
    rw [hui, Option.some.injEq] at h
    rw [← h]
    exact ⟨_, rfl, rfl, rfl⟩

/-- **C5**: `replace_tpcreated` returns a mapping defined on every derived
tile of the old master that is not skipped, and every replacement carries
`tpcreator_data.master_tile_id` equal to the new master's id while keeping
the original derived tile's tags. -/
theorem claim_C5_replace_tpcreated_mapping (canon : SeriesSpec → SeriesSpec)
    (pfgen : TileOptions → String) (items : List (Nat × TileProps))
    (store : Nat → Option Tile) (fresh : TileOptions → Nat)
    (old_master new_master : Tile) (sync_tpcreated : Bool)
    (skip_replacements : List Nat) (props : TileProps) (sp : TpcreatorSpec)
    (uispec : List UEntry)
    (hprops : lookupProps items old_master.tile_id = some props)
    (hspec : props.tpcreator_spec = some sp)
    (hui : new_master.tile_options.tpcreator_uispec = some uispec)
    (hstore : ∀ tid ∈ get_tpcreated_tile_ids items old_master.tile_id,
      ∃ t, store tid = some t ∧ t.tile_id = tid) :
    ∃ mapping, replace_tpcreated canon pfgen items store fresh old_master new_master
        sync_tpcreated skip_replacements = some mapping ∧
      (∀ tid ∈ get_tpcreated_tile_ids items old_master.tile_id,
        tid ∉ skip_replacements → ∃ pr ∈ mapping, pr.1.tile_id = tid) ∧
      (∀ pr ∈ mapping, ∃ d, pr.2.tile_options.tpcreator_data = some d ∧
        d.master_tile_id = new_master.tile_id ∧
        pr.2.tile_options.tags = pr.1.tile_options.tags) := by
  unfold replace_tpcreated
  simp only [hprops, hspec]
  set ids0 := get_tpcreated_tile_ids items old_master.tile_id with hids0
  set ids := if skip_replacements = [] then ids0
    else ids0.filter (fun tid => tid ∉ skip_replacements) with hids
  set tiles := ids.filterMap store with htiles
  set f := fun tile =>
    if sync_tpcreated then
      _tile_options_of_tpcreated canon pfgen new_master sp tile.tags (some tile)
    else _sync_tpcreator_data new_master tile sp with hf
  have hall : ∀ tile ∈ tiles, (f tile).isSome = true := by
    intro tile _
    rw [hf]
    cases sync_tpcreated with
    | true =>
      simp only [if_true]
      exact tile_options_of_tpcreated_isSome canon pfgen new_master sp
        tile.tags (some tile) uispec hui
    | false =>
      simp only [if_false]
      exact sync_tpcreator_data_isSome new_master tile sp uispec hui
  obtain ⟨tos, htos⟩ := mapMO_some_of_forall f tiles hall
  rw [htos]
  set repl := insert_with_tile_options_multi old_master.dashboard_id fresh tos with hrepl
  refine ⟨tiles.zip repl, rfl, ?_, ?_⟩
  · intro tid htid hskip
    have htid' : tid ∈ ids := by
      rw [hids]
      by_cases hs : skip_replacements = []
      · rw [if_pos hs]
        exact htid
      · rw [if_neg hs]
        refine List.mem_filter.mpr ⟨htid, ?_⟩
        simpa using hskip
    obtain ⟨t, hst, hstid⟩ := hstore tid htid
    have ht_tiles : t ∈ tiles := by
      rw [htiles]
      exact List.mem_filterMap.mpr ⟨tid, htid', hst⟩
    have hlen : tiles.length = repl.length := by
      rw [hrepl]
      unfold insert_with_tile_options_multi
      rw [List.length_map, mapMO_length f tiles tos htos]
    obtain ⟨y, hy⟩ := mem_zip_left tiles repl hlen t ht_tiles
    exact ⟨(t, y), hy, hstid⟩
  · intro pr hpr
    rw [hrepl] at hpr
    unfold insert_with_tile_options_multi at hpr
    rw [List.zip_map_right] at hpr
    rcases List.mem_map.mp hpr with ⟨q, hq, hqe⟩
    have hfq : f q.1 = some q.2 := mapMO_zip f tiles tos htos q hq
    have hpr1 : pr.1 = q.1 := by rw [← hqe]; rfl
    have hpr2 : pr.2.tile_options = q.2 := by rw [← hqe]; rfl
    rw [hpr1, hpr2]
    rw [hf] at hfq
    cases sync_tpcreated with
    | true =>
      simp only [if_true] at hfq
      obtain ⟨d, hd, hdm, htags⟩ :=
        tile_options_of_tpcreated_linkage canon pfgen new_master sp q.1.tags
          (some q.1) q.2 hfq
      exact ⟨d, hd, hdm, htags⟩
    | false =>
      simp only [if_false] at hfq
      obtain ⟨d, hd, hdm, htags⟩ :=
        sync_tpcreator_data_linkage new_master q.1 sp q.2 hfq
      exact ⟨d, hd, hdm, htags⟩

/-- Witness for C5 on a concrete layout with one derived tile. -/
theorem claim_C5_replace_tpcreated_mapping_witness :
    ∃ mapping, replace_tpcreated (fun s => s) (fun _ => "")
        [(1, ⟨1, true, some ⟨["m"], []⟩, none, ["m"]⟩),
         (2, ⟨1, false, none, some 1, ["m2"]⟩)]
        (fun tid => if tid = 2 then
            some ⟨2, 1, ⟨"Range", ["m2"], [], none, none,
              some ⟨1, [], ⟨[], []⟩, none⟩, []⟩⟩
          else none)
        (fun _ => 9)
        ⟨1, 1, ⟨"Range", ["m"], [], none, some [⟨"m", "m"⟩], none, []⟩⟩
        ⟨5, 1, ⟨"Range", ["m"], [], none, some [⟨"m", "m"⟩], none, []⟩⟩
        true [] = some mapping ∧
      (∀ tid ∈ get_tpcreated_tile_ids
          [(1, ⟨1, true, some ⟨["m"], []⟩, none, ["m"]⟩),
           (2, ⟨1, false, none, some 1, ["m2"]⟩)] 1,
        tid ∉ ([] : List Nat) → ∃ pr ∈ mapping, pr.1.tile_id = tid) ∧
      (∀ pr ∈ mapping, ∃ d, pr.2.tile_options.tpcreator_data = some d ∧
        d.master_tile_id = 5 ∧
        pr.2.tile_options.tags = pr.1.tile_options.tags) := by
  have h := claim_C5_replace_tpcreated_mapping (fun s => s) (fun _ => "")
    [(1, ⟨1, true, some ⟨["m"], []⟩, none, ["m"]⟩),
     (2, ⟨1, false, none, some 1, ["m2"]⟩)]
    (fun tid => if tid = 2 then
        some ⟨2, 1, ⟨"Range", ["m2"], [], none, none,
          some ⟨1, [], ⟨[], []⟩, none⟩, []⟩⟩
      else none)
    (fun _ => 9)
    ⟨1, 1, ⟨"Range", ["m"], [], none, some [⟨"m", "m"⟩], none, []⟩⟩
    ⟨5, 1, ⟨"Range", ["m"], [], none, some [⟨"m", "m"⟩], none, []⟩⟩
    true [] ⟨1, true, some ⟨["m"], []⟩, none, ["m"]⟩ ⟨["m"], []⟩ [⟨"m", "m"⟩]
    rfl rfl rfl
    (by
      intro tid htid
      have h2 : tid = 2 := by
        have he : get_tpcreated_tile_ids
            [(1, (⟨1, true, some ⟨["m"], []⟩, none, ["m"]⟩ : TileProps)),
             (2, ⟨1, false, none, some 1, ["m2"]⟩)] 1 = [2] := by decide
        rw [he, List.mem_singleton] at htid
        exact htid
      subst h2
      exact ⟨_, rfl, rfl⟩)
  exact h

/-! ### The tpcreator mod (`mqe/tpcreator.py` lines 155-217) -/

/-- One `defaultdict(set)` update of `_get_tpcreator_data`: record a sorted
tag tuple in the set kept for a master id (sets are modelled as
duplicate-free lists; only membership and size are consumed). -/
def addSortedTags (tags_by : List (Nat × List (List String))) (mid : Nat)
    (st : List String) : List (Nat × List (List String)) :=
  match tags_by with
  | [] => [(mid, [st])]
  | (k, s) :: rest =>
    if k = mid then (k, if st ∈ s then s else s ++ [st]) :: rest
    else (k, s) :: addSortedTags rest mid st

/-- `defaultdict` lookup: the set recorded for a master id, defaulting to
empty. -/
def lookupTags (tags_by : List (Nat × List (List String))) (mid : Nat) :
    List (List String) :=
  match tags_by with
  | [] => []
  | (k, s) :: rest => if k = mid then s else lookupTags rest mid

/-- The loop of `_get_tpcreator_data` (lines 201-217) over the layout's
props items, accumulating `tpcreator_spec_by_master_id` (in iteration
order) and `tpcreated_tags_by_master_id`.  `none` models the `KeyError`
raised by `props['tpcreator_spec']` on a master row without that key. -/
def _get_tpcreator_data_go (report_id : Nat) :
    List (Nat × TileProps) → List (Nat × TpcreatorSpec) →
      List (Nat × List (List String)) →
      Option (List (Nat × TpcreatorSpec) × List (Nat × List (List String)))
  | [], spec_by, tags_by => some (spec_by, tags_by)
  | (tile_id, props) :: rest, spec_by, tags_by =>
    if props.report_id ≠ report_id then
      _get_tpcreator_data_go report_id rest spec_by tags_by
    else if props.is_master then
      match props.tpcreator_spec with
      | none => none
      | some spec =>
        _get_tpcreator_data_go report_id rest (spec_by ++ [(tile_id, spec)])
          (addSortedTags tags_by tile_id (List.insertionSort strle props.tags))
    else
      match props.master_id with
      | none => _get_tpcreator_data_go report_id rest spec_by tags_by
      | some mid =>
        _get_tpcreator_data_go report_id rest spec_by
          (addSortedTags tags_by mid (List.insertionSort strle props.tags))

/-- `_get_tpcreator_data(layout_mod, report_id)`. -/
def _get_tpcreator_data (items : List (Nat × TileProps)) (report_id : Nat) :
    Option (List (Nat × TpcreatorSpec) × List (Nat × List (List String))) :=
  _get_tpcreator_data_go report_id items [] []

/-- The per-master loop of `do_tpcreator_mod` (lines 169-195): skip when the
recorded tag-tuple set already reaches `max_tpcreated`, when the match is
falsy (`None` or empty), when the matched tuple is already materialized, or
when the master tile is missing from storage; otherwise derive the new
tile's options and insert it (the insertion is recorded as
`(master_id, matched tags, options)`).  `none` models a raised exception. -/
def tpcreator_go (canon : SeriesSpec → SeriesSpec) (pfgen : TileOptions → String)
    (store : Nat → Option Tile) (report_tags : List String) (max_tpcreated : Nat)
    (tags_by : List (Nat × List (List String))) :
    List (Nat × TpcreatorSpec) → Option (List (Nat × List String × TileOptions))
  | [] => some []
  | (master_id, tpcreator_spec) :: rest =>
    let tpcreated_tags := lookupTags tags_by master_id
    if max_tpcreated ≤ tpcreated_tags.length then
      tpcreator_go canon pfgen store report_tags max_tpcreated tags_by rest
    else
      match tags_matching_tpcreator_spec (some tpcreator_spec) report_tags with
      | none => tpcreator_go canon pfgen store report_tags max_tpcreated tags_by rest
      | some matching_tags =>
        if matching_tags = [] then
          tpcreator_go canon pfgen store report_tags max_tpcreated tags_by rest
        else if matching_tags ∈ tpcreated_tags then
          tpcreator_go canon pfgen store report_tags max_tpcreated tags_by rest
        else
          match store master_id with
          | none => tpcreator_go canon pfgen store report_tags max_tpcreated tags_by rest
          | some master_tile =>
            match _tile_options_of_tpcreated canon pfgen master_tile tpcreator_spec
                matching_tags none with
            | none => none
            | some new_tile_options =>
              (tpcreator_go canon pfgen store report_tags max_tpcreated tags_by
                rest).map
                (fun l => (master_id, matching_tags, new_tile_options) :: l)

/-- `do_tpcreator_mod` (the closure built by `tpcreator_mod`, lines
157-195): computes the tpcreator data and processes every master, returning
the list of inserted derived tiles.  When no master carries a spec, the mod
deletes the stale layout_by_report row and inserts nothing. -/
def do_tpcreator_mod (canon : SeriesSpec → SeriesSpec) (pfgen : TileOptions → String)
    (items : List (Nat × TileProps)) (report_id : Nat) (report_tags : List String)
    (store : Nat → Option Tile) (max_tpcreated : Nat) :
    Option (List (Nat × List String × TileOptions)) :=
  match _get_tpcreator_data items report_id with
  | none => none
  | some (spec_by, tags_by) =>
    if spec_by = [] then some []
    else tpcreator_go canon pfgen store report_tags max_tpcreated tags_by spec_by

/-- The conditions under which `do_tpcreator_mod` inserts a derived tile for
a master: the recorded tag-tuple set is below the cap, the master's spec
matches the report instance's tags with a truthy (non-empty) result, and the
matched tuple is not yet materialized. -/
def insertion_ok (tags_by : List (Nat × List (List String))) (max_tpcreated : Nat)
    (report_tags : List String) (spec_by : List (Nat × TpcreatorSpec))
    (e : Nat × List String × TileOptions) : Prop :=
  (lookupTags tags_by e.1).length < max_tpcreated ∧
  ∃ sp, (e.1, sp) ∈ spec_by ∧
    tags_matching_tpcreator_spec (some sp) report_tags = some e.2.1 ∧
    e.2.1 ≠ [] ∧ e.2.1 ∉ lookupTags tags_by e.1

/-- Everything `tpcreator_go` guarantees about its insertions: each one
satisfies `insertion_ok`, and no master id is used more often than it occurs
among the masters. -/
def go_ok (tags_by : List (Nat × List (List String))) (max_tpcreated : Nat)
    (report_tags : List String) (spec_by : List (Nat × TpcreatorSpec))
    (ins : List (Nat × List String × TileOptions)) : Prop :=
  (∀ e ∈ ins, insertion_ok tags_by max_tpcreated report_tags spec_by e) ∧
  ∀ mid, (ins.map (fun e => e.1)).count mid ≤ (spec_by.map Prod.fst).count mid

theorem insertion_ok_weaken {tags_by max_tpcreated report_tags rest e}
    {hd : Nat × TpcreatorSpec}
    (h : insertion_ok tags_by max_tpcreated report_tags rest e) :
    insertion_ok tags_by max_tpcreated report_tags (hd :: rest) e := by
  obtain ⟨hlen, sp, hsp, hrest⟩ := h
  exact ⟨hlen, sp, List.mem_cons_of_mem _ hsp, hrest⟩

theorem go_ok_cons_skip {tags_by max_tpcreated report_tags rest ins}
    {hd : Nat × TpcreatorSpec}
    (h : go_ok tags_by max_tpcreated report_tags rest ins) :
    go_ok tags_by max_tpcreated report_tags (hd :: rest) ins := by
  refine ⟨fun e he => insertion_ok_weaken (h.1 e he), fun mid => ?_⟩
  refine le_trans (h.2 mid) ?_
  rw [List.map_cons, List.count_cons]
  exact Nat.le_add_right _ _

theorem go_ok_cons_insert {tags_by max_tpcreated report_tags rest l}
    {master_id : Nat} {sp : TpcreatorSpec} {m : List String} {nto : TileOptions}
    (hlen : (lookupTags tags_by master_id).length < max_tpcreated)
    (hm : tags_matching_tpcreator_spec (some sp) report_tags = some m)
    (hne : m ≠ []) (hmem : m ∉ lookupTags tags_by master_id)
    (h : go_ok tags_by max_tpcreated report_tags rest l) :
    go_ok tags_by max_tpcreated report_tags ((master_id, sp) :: rest)
      ((master_id, m, nto) :: l) := by
  constructor
  · intro e he
    rcases List.mem_cons.mp he with rfl | he
    · exact ⟨hlen, sp, List.mem_cons_self _ _, hm, hne, hmem⟩
    · exact insertion_ok_weaken (h.1 e he)
  · intro mid
    rw [List.map_cons, List.map_cons, List.count_cons, List.count_cons]
    exact Nat.add_le_add (h.2 mid) (le_refl _)

theorem tpcreator_go_conditions (canon : SeriesSpec → SeriesSpec)
    (pfgen : TileOptions → String) (store : Nat → Option Tile)
    (report_tags : List String) (max_tpcreated : Nat)
    (tags_by : List (Nat × List (List String))) :
    ∀ (spec_by : List (Nat × TpcreatorSpec))
      (ins : List (Nat × List String × TileOptions)),
      tpcreator_go canon pfgen store report_tags max_tpcreated tags_by spec_by
          = some ins →
      go_ok tags_by max_tpcreated report_tags spec_by ins := by
  intro spec_by
  induction spec_by with
  | nil =>
    intro ins h
    simp only [tpcreator_go, Option.some.injEq] at h
    subst h
    exact ⟨fun e he => absurd he (List.not_mem_nil e), fun mid => by simp⟩
  | cons hd rest ih =>
    obtain ⟨master_id, sp⟩ := hd
    intro ins h
    simp only [tpcreator_go] at h
    by_cases c1 : max_tpcreated ≤ (lookupTags tags_by master_id).length
    · rw [if_pos c1] at h
      exact go_ok_cons_skip (ih ins h)
    · rw [if_neg c1] at h
      cases hm : tags_matching_tpcreator_spec (some sp) report_tags with
      | none =>
        rw [hm] at h
        exact go_ok_cons_skip (ih ins h)
      | some m =>
        rw [hm] at h
        replace h : (if m = [] then
            tpcreator_go canon pfgen store report_tags max_tpcreated tags_by rest
          else if m ∈ lookupTags tags_by master_id then
            tpcreator_go canon pfgen store report_tags max_tpcreated tags_by rest
          else
            match store master_id with
            | none => tpcreator_go canon pfgen store report_tags max_tpcreated tags_by rest
            | some master_tile =>
              match _tile_options_of_tpcreated canon pfgen master_tile sp m none with
              | none => none
              | some new_tile_options =>
                (tpcreator_go canon pfgen store report_tags max_tpcreated tags_by
                  rest).map
                  (fun l => (master_id, m, new_tile_options) :: l)) = some ins := h
        by_cases c2 : m = []
        · rw [if_pos c2] at h
          exact go_ok_cons_skip (ih ins h)
        · rw [if_neg c2] at h
          by_cases c3 : m ∈ lookupTags tags_by master_id
          · rw [if_pos c3] at h
            exact go_ok_cons_skip (ih ins h)
          · rw [if_neg c3] at h
            cases hs : store master_id with
            | none =>
              rw [hs] at h
              exact go_ok_cons_skip (ih ins h)
            | some master_tile =>
              rw [hs] at h
              replace h : (match _tile_options_of_tpcreated canon pfgen master_tile
                    sp m none with
                | none => (none : Option (List (Nat × List String × TileOptions)))
                | some new_tile_options =>
                  (tpcreator_go canon pfgen store report_tags max_tpcreated tags_by
                    rest).map
                    (fun l => (master_id, m, new_tile_options) :: l)) = some ins := h
              cases hto : _tile_options_of_tpcreated canon pfgen master_tile sp m none with
              | none =>
                rw [hto] at h
                exact Option.noConfusion h
              | some new_tile_options =>
                rw [hto] at h
                replace h : (tpcreator_go canon pfgen store report_tags max_tpcreated
                    tags_by rest).map
                    (fun l => (master_id, m, new_tile_options) :: l) = some ins := h
                rw [Option.map_eq_some'] at h
                obtain ⟨l, hl, hins⟩ := h
                rw [← hins]
                exact go_ok_cons_insert (not_le.mp c1) hm c2 c3 (ih l hl)

theorem get_tpcreator_data_go_spec_keys_nodup (report_id : Nat) :
    ∀ (items : List (Nat × TileProps)) (acc_spec : List (Nat × TpcreatorSpec))
      (acc_tags : List (Nat × List (List String)))
      (spec_by : List (Nat × TpcreatorSpec))
      (tags_by : List (Nat × List (List String))),
      ((acc_spec.map Prod.fst) ++ items.map Prod.fst).Nodup →
      _get_tpcreator_data_go report_id items acc_spec acc_tags
          = some (spec_by, tags_by) →
      (spec_by.map Prod.fst).Nodup := by
  intro items
  induction items with
  | nil =>
    intro acc_spec acc_tags spec_by tags_by hnd h
    simp only [_get_tpcreator_data_go, Option.some.injEq, Prod.mk.injEq] at h
    rw [← h.1]
    rw [List.map_nil, List.append_nil] at hnd
    exact hnd
  | cons it rest ih =>
    obtain ⟨tile_id, props⟩ := it
    intro acc_spec acc_tags spec_by tags_by hnd h
    have hnd_skip : ((acc_spec.map Prod.fst) ++ rest.map Prod.fst).Nodup := by
      refine List.Sublist.nodup ?_ hnd
      refine List.Sublist.append_left ?_ _
      rw [List.map_cons]
      exact List.sublist_cons_self _ _
    simp only [_get_tpcreator_data_go] at h
    by_cases c1 : props.report_id ≠ report_id
    · rw [if_pos c1] at h
      exact ih acc_spec acc_tags spec_by tags_by hnd_skip h
    · rw [if_neg c1] at h
      by_cases c2 : props.is_master = true
      · rw [if_pos c2] at h
        cases hsp : props.tpcreator_spec with
        | none =>
          rw [hsp] at h
          exact absurd h (by simp)
        | some spec =>
          rw [hsp] at h
          replace h : _get_tpcreator_data_go report_id rest
              (acc_spec ++ [(tile_id, spec)])
              (addSortedTags acc_tags tile_id (List.insertionSort strle props.tags))
              = some (spec_by, tags_by) := h
          refine ih _ _ spec_by tags_by ?_ h
          have heq : (acc_spec ++ [(tile_id, spec)]).map Prod.fst ++ rest.map Prod.fst
              = acc_spec.map Prod.fst ++ (tile_id :: rest.map Prod.fst) := by
            rw [List.map_append, List.append_assoc]
            rfl
          rw [heq]
          simpa using hnd
      · rw [if_neg c2] at h
        cases hmid : props.master_id with
        | none =>
          rw [hmid] at h
          exact ih acc_spec acc_tags spec_by tags_by hnd_skip h
        | some mid =>
          rw [hmid] at h
          exact ih acc_spec _ spec_by tags_by hnd_skip h

/-- **C1**: in every run of the tpcreator mod, a derived tile is inserted
for a master only when the number of distinct materialized sorted tag
tuples recorded for that master (a set including the master's own tuple) is
below `max_tpcreated`, the match of the master's spec against the report
instance's tags is truthy, and the matched tuple is not already
materialized; consequently the recorded set grows to at most the configured
maximum and no duplicate derived tile is created for the same matched tags
under the same master (at most one insertion per master per run, for a
fresh tuple). -/
theorem claim_C1_tpcreator_mod_insert_guard (canon : SeriesSpec → SeriesSpec)
    (pfgen : TileOptions → String) (items : List (Nat × TileProps))
    (report_id : Nat) (report_tags : List String) (store : Nat → Option Tile)
    (max_tpcreated : Nat) (spec_by : List (Nat × TpcreatorSpec))
    (tags_by : List (Nat × List (List String)))
    (ins : List (Nat × List String × TileOptions))
    (hnodup : (items.map Prod.fst).Nodup)
    (hget : _get_tpcreator_data items report_id = some (spec_by, tags_by))
    (hrun : do_tpcreator_mod canon pfgen items report_id report_tags store
      max_tpcreated = some ins) :
    (∀ e ∈ ins, insertion_ok tags_by max_tpcreated report_tags spec_by e ∧
      (lookupTags tags_by e.1).length + 1 ≤ max_tpcreated) ∧
    (ins.map (fun e => e.1)).Nodup := by
  unfold do_tpcreator_mod at hrun
  rw [hget] at hrun
  replace hrun : (if spec_by = [] then some [] else
      tpcreator_go canon pfgen store report_tags max_tpcreated tags_by spec_by)
      = some ins := hrun
  have hkeys : (spec_by.map Prod.fst).Nodup :=
    get_tpcreator_data_go_spec_keys_nodup report_id items [] [] spec_by tags_by
      (by simpa using hnodup) hget
  by_cases hsb : spec_by = []
  · rw [if_pos hsb, Option.some.injEq] at hrun
    rw [← hrun]
    exact ⟨fun e he => absurd he (List.not_mem_nil e), by simp⟩
  · rw [if_neg hsb] at hrun
    obtain ⟨hA, hB⟩ := tpcreator_go_conditions canon pfgen store report_tags
      max_tpcreated tags_by spec_by ins hrun
    constructor
    · intro e he
      refine ⟨hA e he, ?_⟩
      have := (hA e he).1
      omega
    · rw [List.nodup_iff_count_le_one]
      intro a
      exact le_trans (hB a) (List.nodup_iff_count_le_one.mp hkeys a)

/-- Witness for C1 on a one-master layout where the run inserts one derived
tile. -/
theorem claim_C1_tpcreator_mod_insert_guard_witness :
    (∀ e ∈ ([(1, ["m2"],
        ⟨"Range", ["m2"], [⟨"s0"⟩], none, none,
          some ⟨1, [⟨"m2", "m"⟩], ⟨[], ["m"]⟩, none⟩, []⟩)] :
        List (Nat × List String × TileOptions)),
      insertion_ok [(1, [["m"]])] 5 ["m2"] [(1, ⟨[], ["m"]⟩)] e ∧
      (lookupTags [(1, [["m"]])] e.1).length + 1 ≤ 5) ∧
    (([(1, ["m2"],
        (⟨"Range", ["m2"], [⟨"s0"⟩], none, none,
          some ⟨1, [⟨"m2", "m"⟩], ⟨[], ["m"]⟩, none⟩, []⟩ : TileOptions))].map
      (fun e => e.1)).Nodup) :=
  claim_C1_tpcreator_mod_insert_guard (fun s => s) (fun _ => "")
    [(1, ⟨1, true, some ⟨[], ["m"]⟩, none, ["m"]⟩)] 1 ["m2"]
    (fun tid => if tid = 1 then
        some ⟨1, 1, ⟨"Range", ["m"], [⟨"s0"⟩], none, some [⟨"m2", "m"⟩], none, []⟩⟩
      else none)
    5 [(1, ⟨[], ["m"]⟩)] [(1, [["m"]])]
    [(1, ["m2"],
      ⟨"Range", ["m2"], [⟨"s0"⟩], none, none,
        some ⟨1, [⟨"m2", "m"⟩], ⟨[], ["m"]⟩, none⟩, []⟩)]
    (by decide) (by decide) (by decide)

/-! ### Size synchronization (`mqe/tpcreator.py` lines 337-361) -/

/-- A placement view object of `layout.layout_dict`: `{x, y, width,
height}`. -/
structure ViewObj where
  x : Nat
  y : Nat
  width : Nat
  height : Nat
deriving Repr, DecidableEq

/-- `layout_dict.get(tile_id)` on the placement dict (modelled as an
association list in iteration order). -/
def lookupVO (layout_dict : List (Nat × ViewObj)) (tile_id : Nat) : Option ViewObj :=
  (layout_dict.find? (fun it => it.1 = tile_id)).map (fun it => it.2)

/-- The loop effect of `do_synchronize`: force the width/height of every
tile other than the master whose `master_id` property is the master to the
master's placement sizes (writing an unchanged size is a no-op, so the
unconditional write is equivalent to the source's compare-and-set). -/
def set_tpcreated_sizes (master_tile_id : Nat) (mvo : ViewObj)
    (props : Nat → TileProps) (layout_dict : List (Nat × ViewObj)) :
    List (Nat × ViewObj) :=
  layout_dict.map (fun it =>
    if it.1 ≠ master_tile_id ∧ (props it.1).master_id = some master_tile_id then
      (it.1, { it.2 with width := mvo.width, height := mvo.height })
    else it)

/-- The loop's `changed` flag: some derived tile's placement differs from
the master's sizes. -/
def sizes_change_needed (master_tile_id : Nat) (mvo : ViewObj)
    (props : Nat → TileProps) (layout_dict : List (Nat × ViewObj)) : Bool :=
  layout_dict.any (fun it =>
    decide (it.1 ≠ master_tile_id ∧ (props it.1).master_id = some master_tile_id ∧
      (it.2.width ≠ mvo.width ∨ it.2.height ≠ mvo.height)))

/-- `do_synchronize` (the closure built by
`synchronize_sizes_of_tpcreated_mod`): `none` models raising
`LayoutModificationImpossible` (missing master placement, or nothing to
change); otherwise the sizes are set and the external `repack` and
`pack_upwards` mods run (black boxes passed as parameters).  The layout's
`get_tile_props` is modelled as the total function `props` (the layout
resolves a property snapshot for any of its tile ids, spec §3). -/
def do_synchronize (repack pack_upwards : List (Nat × ViewObj) → List (Nat × ViewObj))
    (master_tile_id : Nat) (props : Nat → TileProps)
    (layout_dict : List (Nat × ViewObj)) : Option (List (Nat × ViewObj)) :=
  match lookupVO layout_dict master_tile_id with
  | none => none
  | some master_vo =>
    if sizes_change_needed master_tile_id master_vo props layout_dict then
      some (pack_upwards (repack
        (set_tpcreated_sizes master_tile_id master_vo props layout_dict)))
    else none

/-- **C7**: with the master placed in the layout, the mod raises
`LayoutModificationImpossible` (a no-op, producing no new layout version)
exactly when every other tile whose `master_id` equals the master's id
already has the master's width and height; otherwise it sets those tiles'
sizes to the master's and runs the repack followed by the upwards-packing
pass. -/
theorem claim_C7_sync_sizes_noop_or_repack
    (repack pack_upwards : List (Nat × ViewObj) → List (Nat × ViewObj))
    (master_tile_id : Nat) (props : Nat → TileProps)
    (layout_dict : List (Nat × ViewObj)) (mvo : ViewObj)
    (hmaster : lookupVO layout_dict master_tile_id = some mvo) :
    (do_synchronize repack pack_upwards master_tile_id props layout_dict = none ↔
      ∀ it ∈ layout_dict, it.1 ≠ master_tile_id →
        (props it.1).master_id = some master_tile_id →
        it.2.width = mvo.width ∧ it.2.height = mvo.height) ∧
    ((¬ ∀ it ∈ layout_dict, it.1 ≠ master_tile_id →
        (props it.1).master_id = some master_tile_id →
        it.2.width = mvo.width ∧ it.2.height = mvo.height) →
      do_synchronize repack pack_upwards master_tile_id props layout_dict =
        some (pack_upwards (repack
          (set_tpcreated_sizes master_tile_id mvo props layout_dict)))) := by
  have hchange : sizes_change_needed master_tile_id mvo props layout_dict = true ↔
      ¬ ∀ it ∈ layout_dict, it.1 ≠ master_tile_id →
        (props it.1).master_id = some master_tile_id →
        it.2.width = mvo.width ∧ it.2.height = mvo.height := by
    unfold sizes_change_needed
    rw [List.any_eq_true]
    constructor
    · rintro ⟨it, hit, hdec⟩ hall
      rw [decide_eq_true_eq] at hdec
      obtain ⟨h1, h2, h3⟩ := hdec
      obtain ⟨hw, hh⟩ := hall it hit h1 h2
      rcases h3 with h3 | h3
      · exact h3 hw
      · exact h3 hh
    · intro hnall
      by_contra hno
      push_neg at hno
      apply hnall
      intro it hit h1 h2
      have hthis := hno it hit
      constructor
      · by_contra hw
        exact hthis (by rw [decide_eq_true_eq]; exact ⟨h1, h2, Or.inl hw⟩)
      · by_contra hh
        exact hthis (by rw [decide_eq_true_eq]; exact ⟨h1, h2, Or.inr hh⟩)
  have hred : do_synchronize repack pack_upwards master_tile_id props layout_dict
      = (if sizes_change_needed master_tile_id mvo props layout_dict = true then
          some (pack_upwards (repack
            (set_tpcreated_sizes master_tile_id mvo props layout_dict)))
        else none) := by
    unfold do_synchronize
    rw [hmaster]
  rw [hred]
  constructor
  · by_cases hc : sizes_change_needed master_tile_id mvo props layout_dict = true
    · rw [if_pos hc]
      rw [hchange] at hc
      constructor
      · intro hco
        exact Option.noConfusion hco
      · intro hall
        exact absurd hall hc
    · rw [if_neg hc]
      rw [hchange] at hc
      push_neg at hc
      exact iff_of_true rfl hc
  · intro hnall
    rw [if_pos (hchange.mpr hnall)]

/-- Witness for C7: a derived tile with a size differing from the master
forces the repack path (with identity stand-ins for the external packers). -/
theorem claim_C7_sync_sizes_noop_or_repack_witness :
    (do_synchronize (fun d => d) (fun d => d) 1
        (fun tid => if tid = 2 then ⟨1, false, none, some 1, ["m2"]⟩
          else ⟨1, true, some ⟨[], ["m"]⟩, none, ["m"]⟩)
        [(1, ⟨0, 0, 4, 2⟩), (2, ⟨4, 0, 4, 3⟩)] = none ↔
      ∀ it ∈ ([(1, ⟨0, 0, 4, 2⟩), (2, ⟨4, 0, 4, 3⟩)] : List (Nat × ViewObj)),
        it.1 ≠ 1 →
        ((fun tid => if tid = 2 then (⟨1, false, none, some 1, ["m2"]⟩ : TileProps)
          else ⟨1, true, some ⟨[], ["m"]⟩, none, ["m"]⟩) it.1).master_id = some 1 →
        it.2.width = (⟨0, 0, 4, 2⟩ : ViewObj).width ∧
          it.2.height = (⟨0, 0, 4, 2⟩ : ViewObj).height) :=
  (claim_C7_sync_sizes_noop_or_repack (fun d => d) (fun d => d) 1
    (fun tid => if tid = 2 then ⟨1, false, none, some 1, ["m2"]⟩
      else ⟨1, true, some ⟨[], ["m"]⟩, none, ["m"]⟩)
    [(1, ⟨0, 0, 4, 2⟩), (2, ⟨4, 0, 4, 3⟩)] ⟨0, 0, 4, 2⟩ (by decide)).1
